import Mathlib

/-!
# Verification of the LANTERN thread-reconstruction and pipeline-orchestration core

A shallow embedding, in Lean 4, of the decision logic of
`agents/threading_agent.py`, `src/pipeline.py`, `agents/ocr_agent.py` and
`tools/ocr_tools.py`, together with theorems settling the specification
claims about that logic.

Modelling conventions:
* Python scalar values that flow through manifest rows and OCR records are
  modelled by `PyVal` (None, str, int, float).  Python floats are modelled
  as exact rationals plus the three non-finite values `inf`, `-inf`, `nan`
  (no rounding / overflow is modelled; no claim depends on rounding).
* A Python `dict.get(k)` that may find the key absent is modelled by an
  `Option PyVal` field: `none` is "key absent", `some PyVal.vnone` is
  "key present with value None".
* Python's `sorted(xs, key=f)` is the unique stable ascending sort by
  `f`; it is embedded as insertion sort (`pySortRows`), which agrees with
  any stable sort whenever the keys are totally ordered (i.e. no NaN key;
  with NaN keys CPython's result is unspecified).
* `str.strip()` is modelled on the ASCII whitespace characters that occur
  in this data (space, tab, newline, carriage return, vertical tab,
  form feed).
-/

/-- The values a Python float can take: a finite value (modelled as an exact
rational), the two infinities, and NaN. -/
inductive PyFloat where
  | finite (q : ℚ)
  | inf
  | ninf
  | nan
deriving DecidableEq, Repr

/-- Is this float NaN? -/
def PyFloat.isNan : PyFloat → Bool
  | PyFloat.nan => true
  | _ => false

/-- Python's `<=` on floats.  NaN is incomparable with everything
(including itself); `-inf <= x <= inf` for every non-NaN `x`. -/
def pyFloatLe : PyFloat → PyFloat → Bool
  | PyFloat.nan, _ => false
  | _, PyFloat.nan => false
  | PyFloat.ninf, _ => true
  | PyFloat.finite _, PyFloat.ninf => false
  | PyFloat.finite a, PyFloat.finite b => decide (a ≤ b)
  | PyFloat.finite _, PyFloat.inf => true
  | PyFloat.inf, PyFloat.inf => true
  | PyFloat.inf, _ => false

/-- A Python scalar value as it appears in manifest rows / OCR records:
`None`, a string, an int, or a float. -/
inductive PyVal where
  | vnone
  | vstr (s : String)
  | vint (n : Int)
  | vfloat (f : PyFloat)
deriving DecidableEq, Repr

/-- The ASCII whitespace characters recognised by Python's `str.strip()`
(restricted to the ASCII range; the data in this repository is ASCII). -/
def isPyWs (c : Char) : Bool :=
  c = ' ' || c = '\t' || c = '\n' || c = '\x0d' || c = '\x0b' || c = '\x0c'

/-- Strip `isPyWs` characters from both ends of a character list
(the embedding of Python `str.strip()` at the character level). -/
def stripChars (l : List Char) : List Char :=
  List.dropWhile isPyWs ((List.dropWhile isPyWs l.reverse).reverse)

/-- Python `str.strip()`. -/
def pyStrip (s : String) : String :=
  String.mk (stripChars s.data)

/-- Python `repr`/`str` of a float.  The finite case abstracts CPython's
shortest-roundtrip decimal rendering (no claim depends on it); the
non-finite cases are exact. -/
def pyFloatStr : PyFloat → String
  | PyFloat.finite q => toString q
  | PyFloat.inf => "inf"
  | PyFloat.ninf => "-inf"
  | PyFloat.nan => "nan"

/-- Python `str()` of a scalar value. -/
def pyStr : PyVal → String
  | PyVal.vnone => "None"
  | PyVal.vstr s => s
  | PyVal.vint n => toString n
  | PyVal.vfloat f => pyFloatStr f

/-- Python truthiness of a scalar value (`bool(v)`). -/
def pyTruthy : PyVal → Bool
  | PyVal.vnone => false
  | PyVal.vstr s => decide (s ≠ "")
  | PyVal.vint n => decide (n ≠ 0)
  | PyVal.vfloat (PyFloat.finite q) => decide (q ≠ 0)
  | PyVal.vfloat _ => true

/-- Truthiness of the result of a `dict.get(k)`: an absent key yields
`None`, which is falsy. -/
def pyTruthyOpt : Option PyVal → Bool
  | none => false
  | some v => pyTruthy v

/-- Python's `a or b` for two `dict.get` results: the first operand if it
is truthy, otherwise the second. -/
def pyOr (a b : Option PyVal) : Option PyVal :=
  if pyTruthyOpt a then a else b

/-- Is this character an ASCII digit? -/
def isDigitCh (c : Char) : Bool :=
  decide ('0' ≤ c) && decide (c ≤ '9')

/-- Numeric value of a digit string (by left fold, so leading zeros are
harmless). -/
def digitsVal (l : List Char) : Nat :=
  l.foldl (fun a c => a * 10 + (c.toNat - 48)) 0

/-- Parse the exponent part of a float literal: empty input means
exponent `0`; otherwise `e`/`E`, an optional sign and a nonempty digit
string. -/
def parseExpPart : List Char → Option Int
  | [] => some 0
  | c :: rest =>
    if c = 'e' || c = 'E' then
      match rest with
      | '+' :: ds => if ds ≠ [] && ds.all isDigitCh then some (digitsVal ds : Int) else none
      | '-' :: ds => if ds ≠ [] && ds.all isDigitCh then some (-(digitsVal ds : Int)) else none
      | ds => if ds ≠ [] && ds.all isDigitCh then some (digitsVal ds : Int) else none
    else none

/-- Parse the unsigned body of a Python float literal: digits, an optional
fractional part, an optional exponent; or one of the keywords
`inf` / `infinity` / `nan` (the caller lower-cases the input). -/
def parseFloatBody (l : List Char) : Option PyFloat :=
  if l = ['i', 'n', 'f'] || l = ['i', 'n', 'f', 'i', 'n', 'i', 't', 'y'] then
    some PyFloat.inf
  else if l = ['n', 'a', 'n'] then
    some PyFloat.nan
  else
    let ip := l.takeWhile isDigitCh
    let r1 := l.dropWhile isDigitCh
    match r1 with
    | '.' :: r2 =>
      let fp := r2.takeWhile isDigitCh
      let r3 := r2.dropWhile isDigitCh
      if ip = [] && fp = [] then none
      else
        match parseExpPart r3 with
        | some e =>
          some (PyFloat.finite ((digitsVal (ip ++ fp) : ℚ) / (10 : ℚ) ^ fp.length * (10 : ℚ) ^ e))
        | none => none
    | _ =>
      if ip = [] then none
      else
        match parseExpPart r1 with
        | some e => some (PyFloat.finite ((digitsVal ip : ℚ) * (10 : ℚ) ^ e))
        | none => none

/-- Negate a float (used for a leading `-` sign). -/
def pyFloatNeg : PyFloat → PyFloat
  | PyFloat.finite q => PyFloat.finite (-q)
  | PyFloat.inf => PyFloat.ninf
  | PyFloat.ninf => PyFloat.inf
  | PyFloat.nan => PyFloat.nan

/-- Python `float(s)` on a string: strip whitespace, read an optional
sign, then a float body (case-insensitive for the keywords).  Returns
`none` when CPython would raise `ValueError`.  (Underscore digit
separators and overflow-to-infinity are not modelled; no claim uses
them.) -/
def pyFloatOfString (s : String) : Option PyFloat :=
  let l := (stripChars s.data).map Char.toLower
  match l with
  | '+' :: rest => parseFloatBody rest
  | '-' :: rest => (parseFloatBody rest).map pyFloatNeg
  | _ => parseFloatBody l

/-- Python `float(v)` on the result of a `dict.get`: `None` (and an
absent key) raise `TypeError`, strings are parsed, ints are exact,
floats are returned unchanged.  `none` means "raises". -/
def pyFloatOfVal : Option PyVal → Option PyFloat
  | none => none
  | some PyVal.vnone => none
  | some (PyVal.vstr s) => pyFloatOfString s
  | some (PyVal.vint n) => some (PyFloat.finite (n : ℚ))
  | some (PyVal.vfloat f) => some f

/-- A manifest row, as consumed by `ThreadingAgent.group_sequences` and
`run_pipeline`.  The fields the core logic inspects are explicit; all
other manifest columns pass through opaquely and are summarised by
`payload` (so two rows may agree on every inspected field and still be
different rows). -/
structure Row where
  file_path : Option PyVal := none
  sequence_id : Option PyVal := none
  sequence_order : Option PyVal := none
  notes : Option PyVal := none
  payload : Nat := 0
deriving DecidableEq, Repr

/-- `threading_agent._sequence_id_is_missing`: `None` (or absent), an
empty / whitespace-only string, and a NaN float are "missing". -/
def sequence_id_is_missing : Option PyVal → Bool
  | none => true
  | some PyVal.vnone => true
  | some (PyVal.vstr s) => decide (pyStrip s = "")
  | some (PyVal.vfloat f) => f.isNan
  | some (PyVal.vint _) => false

/-- The group key `group_sequences` (threads enabled) assigns to a row:
`str(sequence_id)`, or `"singleton::<file_path>"` when the id is
missing (with `<unknown>` standing in for an absent path). -/
def groupKey (r : Row) : String :=
  let fp := r.file_path.getD (PyVal.vstr "<unknown>")
  if sequence_id_is_missing r.sequence_id then
    "singleton::" ++ pyStr fp
  else
    pyStr (r.sequence_id.getD PyVal.vnone)

/-- Insertion-ordered string-keyed groups, the model of a Python
`dict[str, list[Row]]`. -/
abbrev Groups := List (String × List Row)

/-- `defaultdict(list)` append: extend the group for `k` with `r`,
creating the group at the end (Python dicts preserve first-insertion
order). -/
def appendGroup (k : String) (r : Row) : Groups → Groups
  | [] => [(k, [r])]
  | (k', l) :: t => if k' = k then (k', l ++ [r]) :: t else (k', l) :: appendGroup k r t

/-- The grouping loop of `group_sequences` (threads enabled): append each
row to the group named by its `groupKey`, left to right. -/
def groupRows (rows : List Row) : Groups :=
  rows.foldl (fun g r => appendGroup (groupKey r) r g) []

/-- `sort_key` from `group_sequences`: `float(sequence_order)`, with
`1e9` substituted whenever `float` raises. -/
def sort_key (r : Row) : PyFloat :=
  match pyFloatOfVal r.sequence_order with
  | some f => f
  | none => PyFloat.finite (10 ^ 9 : ℚ)

/-- The row comparison used to order a sequence: `sort_key` values
compared with Python `<=`. -/
def rowLe (a b : Row) : Bool :=
  pyFloatLe (sort_key a) (sort_key b)

/-- Stable insertion into a list ordered by `rowLe`: `a` goes in front of
the first element it compares `<=` to. -/
def pyInsertRow (a : Row) : List Row → List Row
  | [] => [a]
  | b :: l => if rowLe a b then a :: b :: l else b :: pyInsertRow a l

/-- The embedding of Python `sorted(items, key=sort_key)`: stable
ascending insertion sort. -/
def pySortRows : List Row → List Row
  | [] => []
  | b :: l => pyInsertRow b (pySortRows l)

/-- Dict-comprehension assignment: set key `k` to `v`, keeping the key's
original position if it is already present (Python dict update
semantics), else appending it. -/
def setGroup (k : String) (v : List Row) : Groups → Groups
  | [] => [(k, v)]
  | (k', l) :: t => if k' = k then (k', v) :: t else (k', l) :: setGroup k v t

/-- The key used in no-thread mode for the row at position `idx`:
`str(row.get("file_path", f"seq_{idx}"))`. -/
def noThreadKey (idx : Nat) (r : Row) : String :=
  pyStr (r.file_path.getD (PyVal.vstr ("seq_" ++ toString idx)))

/-- No-thread mode: the dict comprehension
`{str(row.get("file_path", f"seq_{idx}")): [row] for idx, row in enumerate(rows)}`. -/
def noThreadGroups (rows : List Row) : Groups :=
  rows.enum.foldl (fun g p => setGroup (noThreadKey p.1 p.2) [p.2] g) []

/-- `ThreadingAgent.group_sequences`: empty input yields an empty dict;
with threads disabled each row becomes its own singleton group; with
threads enabled rows are grouped by `groupKey` and each group is
stable-sorted by `sort_key`. -/
def group_sequences (enable_threads : Bool) (rows : List Row) : Groups :=
  if rows.isEmpty then []
  else if !enable_threads then noThreadGroups rows
  else (groupRows rows).map (fun g => (g.1, pySortRows g.2))

/-- Dict lookup on insertion-ordered groups (`d[k]` / `d.get(k)`). -/
def lookupG (k : String) : Groups → Option (List Row)
  | [] => none
  | p :: t => if p.1 = k then some p.2 else lookupG k t

/-! ### Concrete rows used to instantiate / refute the grouping claims -/

/-- A row in sequence `s` whose `sequence_order` is absent (so
`float(...)` raises and the sentinel key `1e9` is used). -/
def rowOrderMissing : Row :=
  { sequence_id := some (PyVal.vstr "s"), payload := 1 }

/-- A row in sequence `s` whose `sequence_order` is `2000000000`, which
parses fine but exceeds the `1e9` sentinel. -/
def rowOrderHuge : Row :=
  { sequence_id := some (PyVal.vstr "s"),
    sequence_order := some (PyVal.vint 2000000000), payload := 2 }

/-- First of two rows sharing the file path `d.jpg`. -/
def rowDupA : Row := { file_path := some (PyVal.vstr "d.jpg"), payload := 1 }

/-- Second of two rows sharing the file path `d.jpg`. -/
def rowDupB : Row := { file_path := some (PyVal.vstr "d.jpg"), payload := 2 }

/-- Row `a.jpg` of sequence `s1`, order 2. -/
def rowA : Row :=
  { file_path := some (PyVal.vstr "a.jpg"), sequence_id := some (PyVal.vstr "s1"),
    sequence_order := some (PyVal.vint 2) }

/-- Row `b.jpg` of sequence `s1`, order 1. -/
def rowB : Row :=
  { file_path := some (PyVal.vstr "b.jpg"), sequence_id := some (PyVal.vstr "s1"),
    sequence_order := some (PyVal.vint 1) }

/-- A row with a NaN `sequence_id` and file path `c.jpg`. -/
def rowNanId : Row :=
  { file_path := some (PyVal.vstr "c.jpg"),
    sequence_id := some (PyVal.vfloat PyFloat.nan) }

/-! ### OCR records and the pipeline's cache policy -/

/-- An OCR record (the JSON object produced by `OCRAgent.run_page` or
loaded back from the per-page cache).  Every field is an `Option PyVal`
because a cached JSON object may omit any key. -/
structure OcrRecord where
  raw_text : Option PyVal := none
  clean_text : Option PyVal := none
  ocr_text : Option PyVal := none
  ocr_text_length : Option PyVal := none
  confidence : Option PyVal := none
  error : Option PyVal := none
  model : Option PyVal := none
  engine : Option PyVal := none
deriving DecidableEq, Repr

/-- `run_pipeline` step 1a's `has_text`: some of `clean_text`,
`raw_text`, `ocr_text` is a string with non-whitespace content. -/
def cachedHasText (c : OcrRecord) : Bool :=
  [c.clean_text, c.raw_text, c.ocr_text].any (fun v =>
    match v with
    | some (PyVal.vstr s) => decide (pyStrip s ≠ "")
    | _ => false)

/-- `run_pipeline` step 1a's "bad cached record" test:
`cached.get("error") and not has_text` (note: Python truthiness of the
error value, not a null test). -/
def cacheRecordBad (c : OcrRecord) : Bool :=
  pyTruthyOpt c.error && !cachedHasText c

/-- `str.replace("/", "__")` at the character level. -/
def replaceSlashChars : List Char → List Char
  | [] => []
  | c :: t => if c = '/' then '_' :: '_' :: replaceSlashChars t else c :: replaceSlashChars t

/-- `pipeline._cache_key_for_path`:
`rel_path.replace("/", "__") + ".json"`. -/
def cache_key_for_path (rel : String) : String :=
  String.mk (replaceSlashChars rel.data) ++ ".json"

/-- `ocr_tools.make_cache_key`: the same derivation, duplicated in the
tools module. -/
def make_cache_key (rel : String) : String :=
  String.mk (replaceSlashChars rel.data) ++ ".json"

/-- The on-disk cache directory, as a partial map from file name to the
parsed record; a missing file, an unreadable file and a JSON parse
failure all collapse to `none` (`_load_ocr_from_cache` logs and returns
`None` in each of those cases). -/
abbrev CacheDisk := String → Option OcrRecord

/-- Steps 1a–1b of `run_pipeline` for one manifest row: consult the
cache (when a cache dir is configured and reading is enabled), rejecting
a loaded record iff `cacheRecordBad`; otherwise call the OCR provider on
`root/rel`.  Returns the record used and whether it came from the cache. -/
def ocrStep (cacheDir : Option CacheDisk) (useCache : Bool)
    (ocrProvider : String → OcrRecord) (root rel : String) : OcrRecord × Bool :=
  let cached? : Option OcrRecord :=
    match cacheDir, useCache with
    | some disk, true =>
      match disk (cache_key_for_path rel) with
      | some c => if cacheRecordBad c then none else some c
      | none => none
    | _, _ => none
  match cached? with
  | some c => (c, true)
  | none => (ocrProvider (root ++ "/" ++ rel), false)

/-- A cached record with error `""` (non-null but falsy) and no text. -/
def cachedEmptyErrorRec : OcrRecord := { error := some (PyVal.vstr "") }

/-- A cached record with error `"x"` and no text. -/
def cachedErrorNoTextRec : OcrRecord := { error := some (PyVal.vstr "x") }

/-- A cached record with error `"x"` but non-empty `clean_text`. -/
def cachedErrorWithTextRec : OcrRecord :=
  { error := some (PyVal.vstr "x"), clean_text := some (PyVal.vstr "hello") }

/-- An OCR provider returning an all-defaults record (used to pin down
concrete `ocrStep` evaluations). -/
def provConst : String → OcrRecord := fun _ => {}

/-- A one-entry cache directory holding `rec` under the key for `rel`. -/
def diskWith (rel : String) (rec : OcrRecord) : CacheDisk :=
  fun k => if k = cache_key_for_path rel then some rec else none

/-! ### `_build_search_text` -/

/-- The fields of a merged enriched-page record that
`_build_search_text` consults. -/
structure SearchFields where
  search_text : Option PyVal := none
  notes : Option PyVal := none
  ocr_text : Option PyVal := none
  clean_text : Option PyVal := none
  raw_text : Option PyVal := none
deriving DecidableEq, Repr

/-- One candidate piece: kept iff the value is a string with
non-whitespace content, and then contributed stripped
(`isinstance(x, str) and x.strip()` … `pieces.append(x.strip())`). -/
def pieceOf (v : Option PyVal) : Option String :=
  match v with
  | some (PyVal.vstr s) => if pyStrip s = "" then none else some (pyStrip s)
  | _ => none

/-- `enriched.get("ocr_text") or enriched.get("clean_text") or
enriched.get("raw_text")`. -/
def resolvedOcr (r : SearchFields) : Option PyVal :=
  pyOr (pyOr r.ocr_text r.clean_text) r.raw_text

/-- `"\n\n".join(pieces)` at the character level. -/
def joinPieces : List (List Char) → List Char
  | [] => []
  | [p] => p
  | p :: ps => p ++ '\n' :: '\n' :: joinPieces ps

/-- `"\n\n".join(pieces)` on strings. -/
def joinStrings (ps : List String) : String :=
  String.mk (joinPieces (ps.map String.data))

/-- The pieces `_build_search_text` collects, in order: enrichment
search text, manifest notes, resolved OCR text. -/
def searchEntries (r : SearchFields) : List String :=
  List.filterMap id [pieceOf r.search_text, pieceOf r.notes, pieceOf (resolvedOcr r)]

/-- `pipeline._build_search_text`: join the non-empty stripped pieces
with a blank line and strip the result. -/
def build_search_text (r : SearchFields) : String :=
  pyStrip (joinStrings (searchEntries r))

/-- A character list neither starts nor ends with Python whitespace
(so `str.strip()` leaves it unchanged). -/
def noWsEnds (l : List Char) : Prop :=
  (∀ c t, l = c :: t → isPyWs c = false) ∧ (∀ c t, l.reverse = c :: t → isPyWs c = false)

/-- A concrete merged record: padded enrichment search text, a notes
value, and a plain `ocr_text`. -/
def searchWitnessRec : SearchFields :=
  { search_text := some (PyVal.vstr " a "), notes := some (PyVal.vstr "n"),
    ocr_text := some (PyVal.vstr "o") }

/-! ### `OCRAgent.run_page` -/

/-- `os.path.basename` (POSIX): the suffix after the last `/`. -/
def basename (s : String) : String :=
  String.mk ((s.data.reverse.takeWhile (fun c => decide (c ≠ '/'))).reverse)

/-- `str.split()` with no argument: maximal non-whitespace runs. -/
def pyWords (l : List Char) : List (List Char) :=
  (l.foldr (fun c ws =>
    if isPyWs c then [] :: ws
    else
      match ws with
      | [] => [[c]]
      | w :: rest => (c :: w) :: rest) []).filter (fun w => decide (w ≠ []))

/-- `" ".join(words)` at the character level. -/
def joinWordsSp : List (List Char) → List Char
  | [] => []
  | [w] => w
  | w :: ws => w ++ ' ' :: joinWordsSp ws

/-- `" ".join(s.split())`: collapse whitespace runs to single spaces and
trim. -/
def pyCleanJoin (s : String) : String :=
  String.mk (joinWordsSp (pyWords s.data))

/-- `OCRAgent._mock_response`: the deterministic offline record for an
image path, optionally carrying an error message from a failed backend
call. -/
def mock_response (model_name image_path : String) (err : Option String) : OcrRecord :=
  let text := "[MOCK_OCR] Text for " ++ basename image_path
  { raw_text := some (PyVal.vstr text),
    clean_text := some (PyVal.vstr text),
    ocr_text := some (PyVal.vstr text),
    ocr_text_length := some (PyVal.vint (text.length : Int)),
    confidence := some (PyVal.vfloat (PyFloat.finite 0)),
    error := match err with | none => some PyVal.vnone | some e => some (PyVal.vstr e),
    model := some (PyVal.vstr model_name),
    engine := some (PyVal.vstr "mock") }

/-- `OCRAgent.run_page`.  The filesystem is the function `fileExists`;
the optional backend client is `client`, an external collaborator
returning either raw text or a raised exception's message (the source
falls back to the mock record in the latter case). -/
def run_page (fileExists : String → Bool)
    (client : Option (String → Except String String))
    (use_mock_if_no_key : Bool) (model_name : String)
    (image_path : String) : OcrRecord :=
  if !(fileExists image_path) then
    { raw_text := some (PyVal.vstr ""),
      clean_text := some (PyVal.vstr ""),
      ocr_text := some (PyVal.vstr ""),
      ocr_text_length := some (PyVal.vint 0),
      confidence := some PyVal.vnone,
      error := some (PyVal.vstr ("File not found: " ++ image_path)),
      model := some (PyVal.vstr model_name),
      engine := some (PyVal.vstr "none") }
  else
    match client with
    | none =>
      if use_mock_if_no_key then mock_response model_name image_path none
      else
        { raw_text := some (PyVal.vstr ""),
          clean_text := some (PyVal.vstr ""),
          ocr_text := some (PyVal.vstr ""),
          ocr_text_length := some (PyVal.vint 0),
          confidence := some PyVal.vnone,
          error := some (PyVal.vstr "No Gemini client configured and mock mode disabled."),
          model := some (PyVal.vstr model_name),
          engine := some (PyVal.vstr "none") }
    | some gen =>
      match gen image_path with
      | Except.ok t =>
        let raw := pyStrip t
        let clean := pyCleanJoin raw
        { raw_text := some (PyVal.vstr raw),
          clean_text := some (PyVal.vstr clean),
          ocr_text := some (PyVal.vstr raw),
          ocr_text_length := some (PyVal.vint (clean.length : Int)),
          confidence := some PyVal.vnone,
          error := some PyVal.vnone,
          model := some (PyVal.vstr model_name),
          engine := some (PyVal.vstr "gemini") }
      | Except.error e => mock_response model_name image_path (some e)

/-! ### `run_pipeline` -/

/-- The manifest DataFrame: its column set and its rows. -/
structure Manifest where
  cols : List String
  rows : List Row

/-- `DataFrame.empty`: true when either axis has length zero. -/
def manifestEmpty (m : Manifest) : Bool :=
  m.rows.isEmpty || m.cols.isEmpty

/-- The columns `_validate_manifest` requires. -/
def requiredCols : List String := ["file_path", "category", "doc_type"]

/-- The required columns absent from the manifest. -/
def missingCols (m : Manifest) : List String :=
  requiredCols.filter (fun c => decide (c ∉ m.cols))

/-- `_validate_manifest`: raise `ValueError` iff a required column is
missing. -/
def validateManifest (m : Manifest) : Except String Unit :=
  if missingCols m ≠ [] then
    Except.error ("Manifest is missing required columns: "
      ++ String.intercalate ", " (missingCols m)
      ++ ". Expected at least: 'file_path', 'category', 'doc_type'.")
  else Except.ok ()

/-- The result of `ExtractionAgent.extract_page`: its fixed keys
(`entities`/`num_entities` pass through opaquely as `payload`). -/
structure ExtResult where
  page_summary : PyVal := PyVal.vstr ""
  search_text : PyVal := PyVal.vstr ""
  payload : Nat := 0
deriving DecidableEq, Repr

/-- The result of `ExtractionAgent.summarize_sequence`. -/
structure SeqMeta where
  sequence_summary : String := ""
  sequence_search_text : String := ""
deriving DecidableEq, Repr

/-- Generic insertion-ordered string-keyed dict assignment
(overwrite keeps the original position). -/
def setA {α : Type} (k : String) (v : α) : List (String × α) → List (String × α)
  | [] => [(k, v)]
  | p :: t => if p.1 = k then (k, v) :: t else p :: setA k v t

/-- Generic dict lookup. -/
def lookupA {α : Type} (k : String) : List (String × α) → Option α
  | [] => none
  | p :: t => if p.1 = k then some p.2 else lookupA k t

/-- `clean_text = ocr_record.get("clean_text") or
ocr_record.get("raw_text") or ""`. -/
def resolvedCleanText (ocr : OcrRecord) : PyVal :=
  (pyOr (pyOr ocr.clean_text ocr.raw_text) (some (PyVal.vstr ""))).getD (PyVal.vstr "")

/-- The enriched-page fields downstream phases read (the full merged
dict also carries the opaque manifest / extraction fields). -/
structure Page where
  file_path : PyVal
  clean_text : Option PyVal
  raw_text : Option PyVal
  ocr_text : Option PyVal
  search_text : String
  summary : PyVal
deriving DecidableEq, Repr

/-- Phase 3 of `run_pipeline` for one row: merge
`{**row, **ocr_record, **ext_result}`, apply the `setdefault`s, alias
`summary := page_summary`, and compute the canonical `search_text`.
(The text fields come from the OCR record alone: neither the modelled
manifest rows nor extraction results carry text keys.) -/
def enrichPage (extract : PyVal → Row → ExtResult) (row : Row) (ocr : OcrRecord) : Page :=
  let ct := resolvedCleanText ocr
  let ext := extract ct row
  let mot : Option PyVal :=
    match ocr.ocr_text with
    | some v => some v
    | none => some ct
  { file_path := row.file_path.getD (PyVal.vstr "None"),
    clean_text := ocr.clean_text,
    raw_text := ocr.raw_text,
    ocr_text := mot,
    search_text := build_search_text
      { search_text := some ext.search_text, notes := row.notes,
        ocr_text := mot, clean_text := ocr.clean_text, raw_text := ocr.raw_text },
    summary := ext.page_summary }

/-- The lookup table `pages_by_file` (later rows overwrite earlier on a
duplicated path, as in the dict comprehension). -/
def pagesByFile (pages : List Page) : List (String × Page) :=
  pages.foldl (fun acc pg => setA (pyStr pg.file_path) pg acc) []

/-- A sequence-level output record.  `summary` aliases
`sequence_summary` (the summarize result never carries a `summary`
key, so the alias is always applied). -/
structure SeqRecord where
  sequence_id : String
  num_pages : Nat
  sequence_summary : String
  sequence_search_text : String
  summary : String
deriving DecidableEq, Repr

/-- Phase 4 text collection for one sequence: each member row's page is
looked up by file path; its `clean_text or ocr_text or raw_text or ""`
contributes `str(ct)` when truthy. -/
def seqTexts (pm : List (String × Page)) (rws : List Row) : List String :=
  rws.filterMap (fun r =>
    match lookupA (pyStr (r.file_path.getD PyVal.vnone)) pm with
    | none => none
    | some pg =>
      let ct := pyOr (pyOr pg.clean_text pg.ocr_text) pg.raw_text
      if pyTruthyOpt ct then some (pyStr (ct.getD (PyVal.vstr ""))) else none)

/-- Phase 4 of `run_pipeline` for one sequence: an empty text list
short-circuits to empty summary strings (no provider call); otherwise
the summarize provider is invoked; `num_pages` counts all member
rows. -/
def summarizeStep (summarize : List String → SeqMeta)
    (pm : List (String × Page)) (g : String × List Row) : SeqRecord :=
  let texts := seqTexts pm g.2
  let meta := if texts.isEmpty then ({} : SeqMeta) else summarize texts
  { sequence_id := g.1,
    num_pages := g.2.length,
    sequence_summary := meta.sequence_summary,
    sequence_search_text := meta.sequence_search_text,
    summary := meta.sequence_summary }

/-- `run_pipeline`.  Providers are explicit functional parameters; the
filesystem side effects (cache writes, JSONL export) have no bearing on
the returned value and are not part of the state here, but the
`saveCache` flag is kept for the call shape.  Returns
`(pages, sequence records, fresh OCR calls, extract_page calls,
summarize_sequence calls)` or the validation error. -/
def run_pipeline (m : Manifest) (rootExists : Bool) (root : String)
    (cacheDir : Option CacheDisk) (useCache saveCache : Bool)
    (ocrProv : String → OcrRecord)
    (extract : PyVal → Row → ExtResult)
    (summarize : List String → SeqMeta)
    (threadsEnabled : Bool) :
    Except String (List Page × List SeqRecord × Nat × Nat × Nat) :=
  if manifestEmpty m then Except.ok ([], [], 0, 0, 0)
  else
    match validateManifest m with
    | Except.error e => Except.error e
    | Except.ok _ =>
      let ocrPairs := m.rows.map (fun r =>
        let rel := pyStr (r.file_path.getD PyVal.vnone)
        (rel, ocrStep cacheDir useCache ocrProv root rel))
      let ocrOutputs := ocrPairs.foldl (fun acc p => setA p.1 p.2.1 acc) []
      let freshCount := (ocrPairs.filter (fun p => !p.2.2)).length
      let sequences := group_sequences threadsEnabled m.rows
      let pages := m.rows.map (fun r =>
        let rel := pyStr (r.file_path.getD PyVal.vnone)
        enrichPage extract r ((lookupA rel ocrOutputs).getD {}))
      let pm := pagesByFile pages
      let seqRecs := sequences.map (summarizeStep summarize pm)
      let sumCount := (sequences.filter (fun g => !(seqTexts pm g.2).isEmpty)).length
      Except.ok (pages, seqRecs, freshCount, m.rows.length, sumCount)

/-- A constant page-extraction provider (for concrete evaluations). -/
def extractConst : PyVal → Row → ExtResult := fun _ _ => {}

/-- A constant sequence-summarize provider (for concrete evaluations). -/
def summarizeConst : List String → SeqMeta := fun _ => {}

/-- A filesystem on which every path exists. -/
def fsAll : String → Bool := fun _ => true

/-- A manifest with the three required columns and no rows. -/
def emptyManifest : Manifest :=
  { cols := ["file_path", "category", "doc_type"], rows := [] }

/-! ### JSONL export / reload (`_write_jsonl` / `load_jsonl`)

The records the pipeline exports are JSON values; `json.dump` /
`json.loads` are modelled by an executable serializer and parser over
the value type below.  Finite numbers are modelled as the decimal
literals the `json` module reads and writes (`m / 10^e`, printed with
`e` digits after the point; Python ints are `e = 0`); the non-finite
floats `nan`, `inf` and `-inf` are the `jnan`/`jinf`/`jninf`
constructors, since `json.dump` with its default `allow_nan=True`
writes them as the literals `NaN`/`Infinity`/`-Infinity` and
`json.loads` reads those back (via the default `parse_constant`) as
fresh float objects.  Exponent notation and non-string keys are outside
the model. -/

mutual
/-- A JSON value. -/
inductive Json where
  | null
  | jbool (b : Bool)
  | jnum (m : Int) (e : Nat)
  | jnan
  | jinf
  | jninf
  | jstr (s : String)
  | jarr (a : JArr)
  | jobj (o : JObj)
deriving DecidableEq
/-- A JSON array (its own list type, for mutual recursion). -/
inductive JArr where
  | anil
  | acons (v : Json) (t : JArr)
deriving DecidableEq
/-- A JSON object: insertion-ordered key/value pairs (`json.dump` writes
dict entries in insertion order, `json.loads` rebuilds the same
order). -/
inductive JObj where
  | onil
  | ocons (k : String) (v : Json) (t : JObj)
deriving DecidableEq
end

/-- Decimal digits of `n`, most significant first (`fuel`-driven; the
fuel `n+1` always suffices). -/
def natCharsAux : Nat → Nat → List Char → List Char
  | 0, _, acc => acc
  | fuel + 1, n, acc =>
    if n < 10 then Char.ofNat (48 + n) :: acc
    else natCharsAux fuel (n / 10) (Char.ofNat (48 + n % 10) :: acc)

/-- Decimal digits of `n`. -/
def natChars (n : Nat) : List Char := natCharsAux (n + 1) n []

/-- `str(n)` for a Python int. -/
def intChars (m : Int) : List Char :=
  if m < 0 then '-' :: natChars m.natAbs else natChars m.natAbs

/-- The characters of the JSON literal for `m / 10^e`: for `e = 0` the
integer literal; otherwise the digits of `|m|` left-padded to at least
`e + 1` digits with the point inserted `e` places from the right. -/
def numChars (m : Int) (e : Nat) : List Char :=
  if e = 0 then intChars m
  else
    (if m < 0 then ['-'] else [])
      ++ (List.replicate (e + 1 - (natChars m.natAbs).length) '0' ++ natChars m.natAbs).take
          ((List.replicate (e + 1 - (natChars m.natAbs).length) '0'
            ++ natChars m.natAbs).length - e)
      ++ '.' :: (List.replicate (e + 1 - (natChars m.natAbs).length) '0'
            ++ natChars m.natAbs).drop
          ((List.replicate (e + 1 - (natChars m.natAbs).length) '0'
            ++ natChars m.natAbs).length - e)

/-- Lower-case hex digit. -/
def hexDigit (n : Nat) : Char :=
  if n < 10 then Char.ofNat (48 + n) else Char.ofNat (87 + n)

/-- `json.dump`'s escaping of one character (`ensure_ascii=False`):
the two-character escapes, `\u00XX` for other control characters, and
everything else raw. -/
def escapeChar (c : Char) : List Char :=
  if c = '"' then ['\\', '"']
  else if c = '\\' then ['\\', '\\']
  else if c = '\n' then ['\\', 'n']
  else if c = '\t' then ['\\', 't']
  else if c = '\x0d' then ['\\', 'r']
  else if c = '\x08' then ['\\', 'b']
  else if c = '\x0c' then ['\\', 'f']
  else if c.toNat < 32 then
    ['\\', 'u', '0', '0', hexDigit (c.toNat / 16), hexDigit (c.toNat % 16)]
  else [c]

/-- The JSON string literal for `s`. -/
def strChars (s : String) : List Char :=
  '"' :: ((s.data.map escapeChar).flatten ++ ['"'])

mutual
/-- `json.dumps(v)` with the default separators `(", ", ": ")`. -/
def jdump : Json → List Char
  | Json.null => ['n', 'u', 'l', 'l']
  | Json.jbool true => ['t', 'r', 'u', 'e']
  | Json.jbool false => ['f', 'a', 'l', 's', 'e']
  | Json.jnum m e => numChars m e
  | Json.jnan => ['N', 'a', 'N']
  | Json.jinf => ['I', 'n', 'f', 'i', 'n', 'i', 't', 'y']
  | Json.jninf => ['-', 'I', 'n', 'f', 'i', 'n', 'i', 't', 'y']
  | Json.jstr s => strChars s
  | Json.jarr a => '[' :: adump a
  | Json.jobj o => '\x7b' :: odump o
/-- The tail of an array literal (everything after `[`). -/
def adump : JArr → List Char
  | JArr.anil => [']']
  | JArr.acons v JArr.anil => jdump v ++ [']']
  | JArr.acons v t => jdump v ++ ',' :: ' ' :: adump t
/-- The tail of an object literal (everything after the brace). -/
def odump : JObj → List Char
  | JObj.onil => ['\x7d']
  | JObj.ocons k v JObj.onil => strChars k ++ ':' :: ' ' :: (jdump v ++ ['\x7d'])
  | JObj.ocons k v t => strChars k ++ ':' :: ' ' :: (jdump v ++ ',' :: ' ' :: odump t)
end

mutual
/-- Structural size of a value (drives the parser's fuel bound). -/
def jsize : Json → Nat
  | Json.null => 1
  | Json.jbool _ => 1
  | Json.jnum _ _ => 1
  | Json.jnan => 1
  | Json.jinf => 1
  | Json.jninf => 1
  | Json.jstr _ => 1
  | Json.jarr a => asize a + 1
  | Json.jobj o => osize o + 1
/-- Structural size of an array tail. -/
def asize : JArr → Nat
  | JArr.anil => 1
  | JArr.acons v t => jsize v + asize t + 1
/-- Structural size of an object tail. -/
def osize : JObj → Nat
  | JObj.onil => 1
  | JObj.ocons _ v t => jsize v + osize t + 1
end

/-- JSON's insignificant whitespace (`json.loads` skips these). -/
def isJsonWs (c : Char) : Bool :=
  c = ' ' || c = '\t' || c = '\n' || c = '\x0d'

/-- Skip insignificant whitespace. -/
def skipWs (l : List Char) : List Char := l.dropWhile isJsonWs

/-- Value of a hex digit, if any. -/
def hexVal (c : Char) : Option Nat :=
  if isDigitCh c then some (c.toNat - 48)
  else if 'a' ≤ c ∧ c ≤ 'f' then some (c.toNat - 87)
  else if 'A' ≤ c ∧ c ≤ 'F' then some (c.toNat - 55)
  else none

/-- Decode a single-character escape (`\\x` for the eight short
escapes); `none` for an invalid escape, as `json.loads` rejects it. -/
def unescapeChar (e : Char) : Option Char :=
  if e = '"' then some '"'
  else if e = '\\' then some '\\'
  else if e = '/' then some '/'
  else if e = 'n' then some '\n'
  else if e = 't' then some '\t'
  else if e = 'r' then some '\x0d'
  else if e = 'b' then some '\x08'
  else if e = 'f' then some '\x0c'
  else none

/-- Parse a JSON string body (after the opening quote) up to the
closing quote; rejects raw control characters and bad escapes, as
`json.loads` does. -/
def parseStrBody : List Char → Option (List Char × List Char)
  | [] => none
  | c :: r =>
    if c = '"' then some ([], r)
    else if c = '\\' then
      match r with
      | [] => none
      | e :: r1 =>
        if e = 'u' then
          match r1 with
          | h1 :: h2 :: h3 :: h4 :: r2 =>
            (match hexVal h1, hexVal h2, hexVal h3, hexVal h4 with
             | some a, some b, some cc, some d =>
               (parseStrBody r2).map
                 (fun p => (Char.ofNat (((a * 16 + b) * 16 + cc) * 16 + d) :: p.1, p.2))
             | _, _, _, _ => none)
          | _ => none
        else
          match unescapeChar e with
          | some ch => (parseStrBody r1).map (fun p => (ch :: p.1, p.2))
          | none => none
    else if c.toNat < 32 then none
    else (parseStrBody r).map (fun p => (c :: p.1, p.2))

/-- Parse the body of an unsigned number literal: digits with an
optional fractional part.  Returns the combined digit value, the number
of fractional digits, and the rest. -/
def parseNumBody (l : List Char) : Option (Nat × Nat × List Char) :=
  let ip := l.takeWhile isDigitCh
  let r1 := l.dropWhile isDigitCh
  if ip.isEmpty then none
  else if r1.head? = some '.' then
    let fp := r1.tail.takeWhile isDigitCh
    let r3 := r1.tail.dropWhile isDigitCh
    if fp.isEmpty then none
    else some (digitsVal (ip ++ fp), fp.length, r3)
  else some (digitsVal ip, 0, r1)

mutual
/-- `json.loads`, prefix-style: parse one value, returning it and the
unconsumed input.  `fuel` bounds the nesting work; any fuel at least
`jsize` of the value suffices.  The `NaN`/`Infinity`/`-Infinity`
constant branches mirror CPython's scanner (default `parse_constant`);
CPython tries its number match before the constants, but the two are
disjoint on every input (a number never starts with `N` or `I`, and
after a `-` either `Infinity` matches or a digit must follow), so the
test order here is immaterial. -/
def parseJ : Nat → List Char → Option (Json × List Char)
  | 0, _ => none
  | fuel + 1, l =>
    match skipWs l with
    | [] => none
    | c :: r =>
      if c = 'n' then
        match r with
        | c1 :: c2 :: c3 :: r2 =>
          if c1 = 'u' && c2 = 'l' && c3 = 'l' then some (Json.null, r2) else none
        | _ => none
      else if c = 't' then
        match r with
        | c1 :: c2 :: c3 :: r2 =>
          if c1 = 'r' && c2 = 'u' && c3 = 'e' then some (Json.jbool true, r2) else none
        | _ => none
      else if c = 'f' then
        match r with
        | c1 :: c2 :: c3 :: c4 :: r2 =>
          if c1 = 'a' && c2 = 'l' && c3 = 's' && c4 = 'e' then some (Json.jbool false, r2)
          else none
        | _ => none
      else if c = '"' then
        (parseStrBody r).map (fun p => (Json.jstr (String.mk p.1), p.2))
      else if c = '[' then
        (if (skipWs r).head? = some ']' then some (Json.jarr JArr.anil, (skipWs r).tail)
         else (parseItems fuel (skipWs r)).map (fun p => (Json.jarr p.1, p.2)))
      else if c = '\x7b' then
        (if (skipWs r).head? = some '\x7d' then some (Json.jobj JObj.onil, (skipWs r).tail)
         else (parseMembers fuel (skipWs r)).map (fun p => (Json.jobj p.1, p.2)))
      else if c = 'N' then
        (if r.take 2 = ['a', 'N'] then some (Json.jnan, r.drop 2) else none)
      else if c = 'I' then
        (if r.take 7 = ['n', 'f', 'i', 'n', 'i', 't', 'y'] then some (Json.jinf, r.drop 7)
         else none)
      else if c = '-' then
        (if r.take 8 = ['I', 'n', 'f', 'i', 'n', 'i', 't', 'y'] then some (Json.jninf, r.drop 8)
         else (parseNumBody r).map (fun p => (Json.jnum (-(p.1 : Int)) p.2.1, p.2.2)))
      else if isDigitCh c then
        (parseNumBody (c :: r)).map (fun p => (Json.jnum (p.1 : Int) p.2.1, p.2.2))
      else none
/-- Parse the elements of a non-empty array (after `[` and leading
whitespace). -/
def parseItems : Nat → List Char → Option (JArr × List Char)
  | 0, _ => none
  | fuel + 1, l =>
    match parseJ fuel l with
    | none => none
    | some (v, r) =>
      match skipWs r with
      | [] => none
      | c :: r2 =>
        if c = ',' then (parseItems fuel r2).map (fun p => (JArr.acons v p.1, p.2))
        else if c = ']' then some (JArr.acons v JArr.anil, r2)
        else none
/-- Parse the members of a non-empty object (after the brace and
leading whitespace). -/
def parseMembers : Nat → List Char → Option (JObj × List Char)
  | 0, _ => none
  | fuel + 1, l =>
    match skipWs l with
    | [] => none
    | c :: r =>
      if c = '"' then
        match parseStrBody r with
        | none => none
        | some (k, r2) =>
          match skipWs r2 with
          | [] => none
          | c2 :: r3 =>
            if c2 = ':' then
              match parseJ fuel r3 with
              | none => none
              | some (v, r4) =>
                match skipWs r4 with
                | [] => none
                | c3 :: r5 =>
                  if c3 = ',' then
                    (parseMembers fuel r5).map
                      (fun p => (JObj.ocons (String.mk k) v p.1, p.2))
                  else if c3 = '\x7d' then some (JObj.ocons (String.mk k) v JObj.onil, r5)
                  else none
            else none
      else none
end

/-- `json.loads` on a whole line: the parsed value, provided only
whitespace follows it. -/
def parseLine (l : List Char) : Option Json :=
  match parseJ (2 * l.length + 2) l with
  | some (v, rest) => if skipWs rest = [] then some v else none
  | none => none

/-- `pipeline._write_jsonl`: one `json.dump`ed record per line. -/
def write_jsonl (records : List Json) : String :=
  String.mk ((records.map (fun r => jdump r ++ ['\n'])).flatten)

/-- One step of splitting on newlines: a newline opens a fresh line,
any other character is prepended to the current (first) line. -/
def splitStep (c : Char) (acc : List (List Char)) : List (List Char) :=
  if c = '\n' then [] :: acc
  else
    match acc with
    | [] => [[c]]
    | h :: t => (c :: h) :: t

/-- Split on newlines (what iterating the file line by line yields,
modulo the terminators that `strip()` removes anyway). -/
def splitLines (l : List Char) : List (List Char) :=
  l.foldr splitStep [[]]

/-- `ocr_tools.load_jsonl`: strip each line, skip blank lines, parse
each remaining line, skipping malformed ones. -/
def load_jsonl (s : String) : List Json :=
  ((splitLines s.data).map stripChars).filterMap (fun line =>
    if line.isEmpty then none else parseLine line)

/-- A head condition on the characters following a serialized value:
nothing that could extend a number literal (a digit or a point) comes
first.  Trivially true of the empty rest and of the separators and
closers that `json.dump` emits. -/
def RestHead (rest : List Char) : Prop :=
  ∀ c t, rest = c :: t → isDigitCh c = false ∧ c ≠ '.'

/-- The keys of an object, in order. -/
def okeys : JObj → List String
  | JObj.onil => []
  | JObj.ocons k _ t => k :: okeys t

/-- Dict lookup on an object's key/value pairs (keys of a Python dict
are unique, so the first match is the binding). -/
def olookup (k : String) : JObj → Option Json
  | JObj.onil => none
  | JObj.ocons kk v t => if kk = k then some v else olookup k t

/-- `(k, v)` is one of the object's bindings. -/
def bindingIn (k : String) (v : Json) : JObj → Prop
  | JObj.onil => False
  | JObj.ocons kk vv t => (kk = k ∧ vv = v) ∨ bindingIn k v t

mutual
/-- Python `==` on deserialized JSON values, as it compares values that
share no object identity (the situation after a round-trip, where every
reloaded value is a fresh object and the interpreter's `is` shortcut in
container comparison cannot fire): `nan` is unequal to everything
including itself, `inf`/`-inf` equal themselves, booleans compare
numerically with numbers (`True == 1`), numbers compare by value, lists
compare elementwise, and dicts compare by key set plus per-key values
(keys of a Python dict are unique). -/
def pyEqJ : Json → Json → Bool
  | Json.null, Json.null => true
  | Json.jbool a, Json.jbool b => a == b
  | Json.jbool a, Json.jnum m e => decide (((if a then 1 else 0) : Int) * (10 : Int) ^ e = m)
  | Json.jnum m e, Json.jbool b => decide (m = ((if b then 1 else 0) : Int) * (10 : Int) ^ e)
  | Json.jnum m e, Json.jnum m2 e2 => decide (m * (10 : Int) ^ e2 = m2 * (10 : Int) ^ e)
  | Json.jinf, Json.jinf => true
  | Json.jninf, Json.jninf => true
  | Json.jstr s, Json.jstr s2 => s == s2
  | Json.jarr a, Json.jarr a2 => pyEqA a a2
  | Json.jobj o, Json.jobj o2 =>
    pyEqBindings o o2 && (okeys o2).all (fun k => (olookup k o).isSome)
  | _, _ => false
/-- Python `==` on lists: elementwise, equal lengths. -/
def pyEqA : JArr → JArr → Bool
  | JArr.anil, JArr.anil => true
  | JArr.acons v t, JArr.acons v2 t2 => pyEqJ v v2 && pyEqA t t2
  | _, _ => false
/-- Each binding of the first object looks up `==`-equal in the
second. -/
def pyEqBindings : JObj → JObj → Bool
  | JObj.onil, _ => true
  | JObj.ocons k v t, b =>
    (match olookup k b with
     | some vb => pyEqJ v vb
     | none => false) && pyEqBindings t b
end

/-- Python `==` on the record lists compared by the round-trip. -/
def pyEqJList : List Json → List Json → Bool
  | [], [] => true
  | a :: as2, b :: bs => pyEqJ a b && pyEqJList as2 bs
  | _, _ => false

mutual
/-- No `nan` occurs anywhere in the value. -/
def nanFree : Json → Bool
  | Json.jnan => false
  | Json.jarr a => nanFreeA a
  | Json.jobj o => nanFreeO o
  | _ => true
/-- No `nan` occurs in any element. -/
def nanFreeA : JArr → Bool
  | JArr.anil => true
  | JArr.acons v t => nanFree v && nanFreeA t
/-- No `nan` occurs in any member value. -/
def nanFreeO : JObj → Bool
  | JObj.onil => true
  | JObj.ocons _ v t => nanFree v && nanFreeO t
end

mutual
/-- Every object in the value has pairwise-distinct keys (automatic for
values produced from Python dicts). -/
def nodupKeysJ : Json → Bool
  | Json.jarr a => nodupKeysA a
  | Json.jobj o => decide (okeys o).Nodup && nodupKeysO o
  | _ => true
/-- Key-uniqueness inside every element. -/
def nodupKeysA : JArr → Bool
  | JArr.anil => true
  | JArr.acons v t => nodupKeysJ v && nodupKeysA t
/-- Key-uniqueness inside every member value. -/
def nodupKeysO : JObj → Bool
  | JObj.onil => true
  | JObj.ocons _ v t => nodupKeysJ v && nodupKeysO t
end

/-! ## Helper lemmas: the float order -/

/-- `RowLeP a b`: row `a`'s sort key is `<=` row `b`'s (as a proposition). -/
def RowLeP (a b : Row) : Prop := rowLe a b = true

theorem pyFloatLe_refl (a : PyFloat) (h : a.isNan = false) : pyFloatLe a a = true := by
  cases a <;> simp_all [pyFloatLe, PyFloat.isNan]

theorem pyFloatLe_trans {a b c : PyFloat} (h1 : pyFloatLe a b = true)
    (h2 : pyFloatLe b c = true) : pyFloatLe a c = true := by
  cases a <;> cases b <;> cases c <;> simp_all [pyFloatLe] <;> linarith

theorem pyFloatLe_total (a b : PyFloat) (ha : a.isNan = false) (hb : b.isNan = false) :
    pyFloatLe a b = true ∨ pyFloatLe b a = true := by
  cases a <;> cases b <;> simp_all [pyFloatLe, PyFloat.isNan]
  exact le_total _ _

theorem pyFloatLe_of_not_le {a b : PyFloat} (ha : a.isNan = false) (hb : b.isNan = false)
    (h : pyFloatLe a b = false) : pyFloatLe b a = true := by
  rcases pyFloatLe_total a b ha hb with h' | h'
  · rw [h] at h'; exact absurd h' (by simp)
  · exact h'

theorem rowLe_nonNan_left {a b : Row} (h : rowLe a b = true) : (sort_key a).isNan = false := by
  cases ha : sort_key a <;> simp_all [rowLe, pyFloatLe, PyFloat.isNan]

/-! ## Helper lemmas: stable insertion sort -/

theorem mem_pyInsertRow {x a : Row} {l : List Row} :
    x ∈ pyInsertRow a l ↔ x = a ∨ x ∈ l := by
  induction l with
  | nil => simp [pyInsertRow]
  | cons b t ih =>
    by_cases h : rowLe a b = true
    · simp [pyInsertRow, h]
    · simp only [pyInsertRow, if_neg h, List.mem_cons, ih]
      tauto

theorem pyInsertRow_perm (a : Row) (l : List Row) :
    List.Perm (pyInsertRow a l) (a :: l) := by
  induction l with
  | nil => simp [pyInsertRow]
  | cons b t ih =>
    by_cases h : rowLe a b = true
    · simp [pyInsertRow, h]
    · simp only [pyInsertRow, if_neg h]
      exact (ih.cons b).trans (List.Perm.swap a b t)

theorem pySortRows_perm (l : List Row) : List.Perm (pySortRows l) l := by
  induction l with
  | nil => simp [pySortRows]
  | cons b t ih =>
    exact (pyInsertRow_perm b (pySortRows t)).trans (ih.cons b)

theorem mem_pySortRows {x : Row} {l : List Row} : x ∈ pySortRows l ↔ x ∈ l :=
  (pySortRows_perm l).mem_iff

theorem pairwise_pyInsertRow {a : Row} {l : List Row}
    (ha : (sort_key a).isNan = false)
    (hl : ∀ x ∈ l, (sort_key x).isNan = false)
    (hp : l.Pairwise RowLeP) : (pyInsertRow a l).Pairwise RowLeP := by
  induction l with
  | nil => simp [pyInsertRow, List.Pairwise]
  | cons b t ih =>
    have hb : (sort_key b).isNan = false := hl b (by simp)
    have ht : ∀ x ∈ t, (sort_key x).isNan = false := fun x hx => hl x (by simp [hx])
    rcases List.pairwise_cons.mp hp with ⟨hbt, hpt⟩
    by_cases h : rowLe a b = true
    · simp only [pyInsertRow, if_pos h]
      refine List.pairwise_cons.mpr ⟨?_, hp⟩
      intro y hy
      rcases List.mem_cons.mp hy with rfl | hyt
      · exact h
      · exact pyFloatLe_trans h (hbt y hyt)
    · simp only [pyInsertRow, if_neg h]
      refine List.pairwise_cons.mpr ⟨?_, ih ht hpt⟩
      intro y hy
      rcases mem_pyInsertRow.mp hy with rfl | hyt
      · exact pyFloatLe_of_not_le ha hb (Bool.not_eq_true _ ▸ h)
      · exact hbt y hyt

theorem pairwise_pySortRows {l : List Row}
    (h : ∀ x ∈ l, (sort_key x).isNan = false) :
    (pySortRows l).Pairwise RowLeP := by
  induction l with
  | nil => simp [pySortRows, List.Pairwise]
  | cons b t ih =>
    have hb : (sort_key b).isNan = false := h b (by simp)
    have ht : ∀ x ∈ t, (sort_key x).isNan = false := fun x hx => h x (by simp [hx])
    exact pairwise_pyInsertRow hb
      (fun x hx => ht x (mem_pySortRows.mp hx)) (ih ht)

theorem filter_pyInsertRow_of_eq {c : PyFloat} {a : Row} {l : List Row}
    (ha : sort_key a = c) (hann : (sort_key a).isNan = false)
    (hl : ∀ x ∈ l, (sort_key x).isNan = false) :
    (pyInsertRow a l).filter (fun r => decide (sort_key r = c)) =
      a :: l.filter (fun r => decide (sort_key r = c)) := by
  induction l with
  | nil => simp [pyInsertRow, ha]
  | cons b t ih =>
    have hb : (sort_key b).isNan = false := hl b (by simp)
    have ht : ∀ x ∈ t, (sort_key x).isNan = false := fun x hx => hl x (by simp [hx])
    by_cases h : rowLe a b = true
    · simp only [pyInsertRow, if_pos h, List.filter_cons]
      simp [ha]
    · have hba : sort_key b ≠ c := by
        intro hbc
        apply h
        unfold rowLe
        rw [ha, hbc]
        exact pyFloatLe_refl c (ha ▸ hann)
      simp only [pyInsertRow, if_neg h, List.filter_cons]
      simp only [decide_eq_true_eq, if_neg hba, hba, decide_False]
      simp only [Bool.false_eq_true, if_false]
      exact ih ht

theorem filter_pyInsertRow_of_ne {c : PyFloat} {a : Row} {l : List Row}
    (ha : sort_key a ≠ c) :
    (pyInsertRow a l).filter (fun r => decide (sort_key r = c)) =
      l.filter (fun r => decide (sort_key r = c)) := by
  induction l with
  | nil => simp [pyInsertRow, ha]
  | cons b t ih =>
    by_cases h : rowLe a b = true
    · simp [pyInsertRow, h, List.filter_cons, ha]
    · simp only [pyInsertRow, if_neg h, List.filter_cons]
      rw [ih]

theorem filter_pySortRows {c : PyFloat} {l : List Row}
    (h : ∀ x ∈ l, (sort_key x).isNan = false) :
    (pySortRows l).filter (fun r => decide (sort_key r = c)) =
      l.filter (fun r => decide (sort_key r = c)) := by
  induction l with
  | nil => simp [pySortRows]
  | cons b t ih =>
    have hb : (sort_key b).isNan = false := h b (by simp)
    have ht : ∀ x ∈ t, (sort_key x).isNan = false := fun x hx => h x (by simp [hx])
    by_cases hc : sort_key b = c
    · rw [show pySortRows (b :: t) = pyInsertRow b (pySortRows t) from rfl,
        filter_pyInsertRow_of_eq hc hb (fun x hx => ht x (mem_pySortRows.mp hx)),
        ih ht, List.filter_cons, if_pos (by simp [hc])]
    · rw [show pySortRows (b :: t) = pyInsertRow b (pySortRows t) from rfl,
        filter_pyInsertRow_of_ne hc,
        ih ht, List.filter_cons, if_neg (by simp [hc])]


/-! ## Helper lemmas: insertion-ordered grouping -/

theorem lookupG_cons (k0 : String) (l0 : List Row) (t : Groups) (k : String) :
    lookupG k ((k0, l0) :: t) = if k0 = k then some l0 else lookupG k t := rfl

theorem lookupG_appendGroup (k : String) (r : Row) (g : Groups) (k' : String) :
    lookupG k' (appendGroup k r g) =
      if k = k' then some (((lookupG k g).getD []) ++ [r]) else lookupG k' g := by
  induction g with
  | nil =>
    by_cases h : k = k' <;> simp [appendGroup, lookupG, h]
  | cons p t ih =>
    obtain ⟨k0, l0⟩ := p
    by_cases h0 : k0 = k
    · subst h0
      have hg : appendGroup k0 r ((k0, l0) :: t) = (k0, l0 ++ [r]) :: t := by
        simp [appendGroup]
      rw [hg]
      by_cases h : k0 = k' <;> simp [lookupG_cons, h]
    · have hg : appendGroup k r ((k0, l0) :: t) = (k0, l0) :: appendGroup k r t := by
        simp [appendGroup, h0]
      rw [hg]
      by_cases h : k0 = k'
      · subst h
        have hk : ¬(k = k0) := fun hh => h0 hh.symm
        simp [lookupG_cons, hk]
      · rw [lookupG_cons, if_neg h, ih, lookupG_cons, if_neg h0, lookupG_cons, if_neg h]

theorem keys_appendGroup (k : String) (r : Row) (g : Groups) :
    (appendGroup k r g).map Prod.fst =
      if k ∈ g.map Prod.fst then g.map Prod.fst else g.map Prod.fst ++ [k] := by
  induction g with
  | nil => simp [appendGroup]
  | cons p t ih =>
    obtain ⟨k0, l0⟩ := p
    by_cases h0 : k0 = k
    · subst h0
      simp [appendGroup]
    · simp only [appendGroup, if_neg h0, List.map_cons, ih]
      by_cases hk : k ∈ t.map Prod.fst
      · simp [hk, Ne.symm h0]
      · simp [hk, Ne.symm h0]

theorem nodup_keys_appendGroup {k : String} {r : Row} {g : Groups}
    (h : (g.map Prod.fst).Nodup) : ((appendGroup k r g).map Prod.fst).Nodup := by
  rw [keys_appendGroup]
  by_cases hk : k ∈ g.map Prod.fst
  · simp [hk, h]
  · simp only [if_neg hk]
    exact List.Nodup.append h (List.nodup_singleton k) (by simpa using hk)

theorem join_appendGroup (k : String) (r : Row) (g : Groups) :
    List.Perm ((appendGroup k r g).map Prod.snd).flatten (((g.map Prod.snd).flatten) ++ [r]) := by
  induction g with
  | nil => simp [appendGroup]
  | cons p t ih =>
    obtain ⟨k0, l0⟩ := p
    by_cases h0 : k0 = k
    · subst h0
      have hg : appendGroup k0 r ((k0, l0) :: t) = (k0, l0 ++ [r]) :: t := by
        simp [appendGroup]
      rw [hg]
      simp only [List.map_cons, List.flatten_cons, List.append_assoc]
      exact List.Perm.append_left l0 List.perm_append_comm
    · have hg : appendGroup k r ((k0, l0) :: t) = (k0, l0) :: appendGroup k r t := by
        simp [appendGroup, h0]
      rw [hg]
      simp only [List.map_cons, List.flatten_cons, List.append_assoc]
      exact List.Perm.append_left l0 ih

/-- The generalized grouping-loop invariant: look-ups in the fold result
are look-ups in the accumulator extended by the matching filtered rows. -/
theorem foldl_appendGroup_lookup (rows : List Row) :
    ∀ (g : Groups) (k : String),
      lookupG k (rows.foldl (fun g r => appendGroup (groupKey r) r g) g) =
        match lookupG k g with
        | some l => some (l ++ rows.filter (fun r => decide (groupKey r = k)))
        | none =>
          if (rows.filter (fun r => decide (groupKey r = k))).isEmpty then none
          else some (rows.filter (fun r => decide (groupKey r = k))) := by
  induction rows with
  | nil =>
    intro g k
    cases h : lookupG k g <;> simp [h]
  | cons r rest ih =>
    intro g k
    simp only [List.foldl_cons, List.filter_cons]
    rw [ih (appendGroup (groupKey r) r g) k, lookupG_appendGroup]
    by_cases hk : groupKey r = k
    · subst hk
      cases h : lookupG (groupKey r) g <;> simp [h]
    · rw [if_neg hk]
      simp [hk]

theorem nodup_keys_foldl_appendGroup (rows : List Row) :
    ∀ (g : Groups), (g.map Prod.fst).Nodup →
      ((rows.foldl (fun g r => appendGroup (groupKey r) r g) g).map Prod.fst).Nodup := by
  induction rows with
  | nil => intro g h; exact h
  | cons r rest ih =>
    intro g h
    exact ih _ (nodup_keys_appendGroup h)

theorem join_foldl_appendGroup (rows : List Row) :
    ∀ (g : Groups),
      List.Perm ((rows.foldl (fun g r => appendGroup (groupKey r) r g) g).map Prod.snd).flatten
        ((g.map Prod.snd).flatten ++ rows) := by
  induction rows with
  | nil => intro g; simp
  | cons r rest ih =>
    intro g
    simp only [List.foldl_cons]
    refine (ih (appendGroup (groupKey r) r g)).trans ?_
    have h1 := (join_appendGroup (groupKey r) r g).append_right rest
    have h2 : (((g.map Prod.snd).flatten) ++ [r]) ++ rest =
        ((g.map Prod.snd).flatten) ++ (r :: rest) := by simp
    rw [h2] at h1
    exact h1

theorem groupRows_lookup (rows : List Row) (k : String) :
    lookupG k (groupRows rows) =
      if (rows.filter (fun r => decide (groupKey r = k))).isEmpty then none
      else some (rows.filter (fun r => decide (groupKey r = k))) := by
  unfold groupRows
  rw [foldl_appendGroup_lookup rows [] k]
  rfl

theorem lookupG_map_sort (g : Groups) (k : String) :
    lookupG k (g.map (fun p => (p.1, pySortRows p.2))) = (lookupG k g).map pySortRows := by
  induction g with
  | nil => simp [lookupG]
  | cons p t ih =>
    obtain ⟨k0, l0⟩ := p
    by_cases h : k0 = k
    · simp [lookupG_cons, h]
    · simp only [List.map_cons, lookupG_cons, if_neg h]
      exact ih

/-- Characterization of `group_sequences` in threads-enabled mode: the
group stored at key `k` is the stable sort of exactly the input rows
whose `groupKey` is `k`. -/
theorem group_sequences_true_lookup (rows : List Row) (k : String) :
    lookupG k (group_sequences true rows) =
      if (rows.filter (fun r => decide (groupKey r = k))).isEmpty then none
      else some (pySortRows (rows.filter (fun r => decide (groupKey r = k)))) := by
  by_cases hrows : rows.isEmpty
  · have hnil : rows = [] := by
      cases rows with
      | nil => rfl
      | cons a t => simp at hrows
    subst hnil
    simp [group_sequences, lookupG]
  · have h1 : group_sequences true rows =
        (groupRows rows).map (fun g => (g.1, pySortRows g.2)) := by
      simp [group_sequences, hrows]
    rw [h1, lookupG_map_sort, groupRows_lookup]
    by_cases hf : (rows.filter (fun r => decide (groupKey r = k))).isEmpty
    · simp [hf]
    · simp [hf]

/-! ## Helper lemmas: no-thread mode -/

theorem setGroup_not_mem {k : String} {v : List Row} {g : Groups}
    (h : k ∉ g.map Prod.fst) : setGroup k v g = g ++ [(k, v)] := by
  induction g with
  | nil => simp [setGroup]
  | cons p t ih =>
    obtain ⟨k0, l0⟩ := p
    have hk0 : ¬(k0 = k) := by
      intro hh
      exact h (by simp [hh])
    simp only [setGroup, if_neg hk0, List.cons_append, List.cons.injEq, true_and]
    exact ih (fun hm => h (by simp [hm]))

theorem foldl_setGroup_eq (ps : List (Nat × Row)) :
    ∀ (acc : Groups),
      (ps.map (fun p => noThreadKey p.1 p.2)).Nodup →
      (∀ kk ∈ ps.map (fun p => noThreadKey p.1 p.2), kk ∉ acc.map Prod.fst) →
      ps.foldl (fun g p => setGroup (noThreadKey p.1 p.2) [p.2] g) acc =
        acc ++ ps.map (fun p => (noThreadKey p.1 p.2, [p.2])) := by
  induction ps with
  | nil => intro acc _ _; simp
  | cons p rest ih =>
    intro acc hnd hdisj
    simp only [List.foldl_cons]
    have hset : setGroup (noThreadKey p.1 p.2) [p.2] acc =
        acc ++ [(noThreadKey p.1 p.2, [p.2])] :=
      setGroup_not_mem (hdisj _ (by simp))
    rw [hset]
    rw [ih (acc ++ [(noThreadKey p.1 p.2, [p.2])])
      (by simpa using hnd.of_cons)
      ?_]
    · simp
    · intro kk hkk
      simp only [List.map_append, List.mem_append, List.map_cons] at *
      rcases List.pairwise_cons.mp hnd with ⟨hhead, _⟩
      push_neg
      constructor
      · exact hdisj kk (by simp [hkk])
      · simp only [List.mem_map] at hkk
        obtain ⟨q, hq, rfl⟩ := hkk
        have := hhead _ (List.mem_map_of_mem _ hq)
        simpa using fun hh => this hh.symm

/-- No-thread mode with pairwise-distinct keys: the dict comprehension
produces exactly one singleton group per row, in order. -/
theorem noThreadGroups_eq (rows : List Row)
    (h : (rows.enum.map (fun p => noThreadKey p.1 p.2)).Nodup) :
    noThreadGroups rows = rows.enum.map (fun p => (noThreadKey p.1 p.2, [p.2])) := by
  unfold noThreadGroups
  rw [foldl_setGroup_eq rows.enum [] h (by simp)]
  simp

/-! ## More helper lemmas for the grouping claims -/

theorem string_append_left_cancel {a b c : String} (h : a ++ b = a ++ c) : b = c := by
  have hd : (a ++ b).data = (a ++ c).data := congrArg String.data h
  rw [String.data_append, String.data_append] at hd
  have h2 := List.append_cancel_left hd
  cases b
  cases c
  exact congrArg String.mk h2

theorem flatten_map_sort_perm (g : Groups) :
    List.Perm ((g.map (fun p => (p.1, pySortRows p.2))).map Prod.snd).flatten
      ((g.map Prod.snd).flatten) := by
  induction g with
  | nil => simp
  | cons p t ih =>
    simp only [List.map_cons, List.flatten_cons]
    exact List.Perm.append (pySortRows_perm p.2) ih

theorem keys_map_sort (g : Groups) :
    ((g.map (fun p => (p.1, pySortRows p.2))).map Prod.fst) = g.map Prod.fst := by
  induction g with
  | nil => simp
  | cons p t ih =>
    simp only [List.map_cons, ih]

theorem groupKey_of_filter_mem {rows : List Row} {k : String} {r : Row}
    (h : r ∈ rows.filter (fun r => decide (groupKey r = k))) : groupKey r = k := by
  have := List.of_mem_filter h
  simpa using this

/-- Membership characterization: a member of the group stored at key `k`
is an input row whose `groupKey` is `k`, and conversely. -/
theorem mem_group_sequences_true {rows l : List Row} {k : String} {r : Row}
    (hl : lookupG k (group_sequences true rows) = some l) :
    (r ∈ l ↔ r ∈ rows ∧ groupKey r = k) := by
  rw [group_sequences_true_lookup] at hl
  by_cases hf : (rows.filter (fun r => decide (groupKey r = k))).isEmpty
  · rw [if_pos hf] at hl; cases hl
  · rw [if_neg hf] at hl
    obtain rfl : pySortRows (rows.filter (fun r => decide (groupKey r = k))) = l :=
      Option.some.injEq _ _ ▸ hl ▸ rfl
    constructor
    · intro hr
      have hmem := mem_pySortRows.mp hr
      exact ⟨(List.mem_filter.mp hmem).1, by simpa using (List.mem_filter.mp hmem).2⟩
    · intro ⟨hmem, hkey⟩
      exact mem_pySortRows.mpr (List.mem_filter.mpr ⟨hmem, by simpa using hkey⟩)

/-! ## Claim C1 -/

/-- C1: with threads enabled, every row whose `sequence_id` is missing
(None/absent, blank string, or NaN) lands in the group keyed exactly
`"singleton::" ++ file_path`; it lands in no other group; and two
missing-id rows with different file paths land under different keys. -/
theorem missing_id_singleton_key (rows : List Row) (r : Row) (p : String)
    (hmem : r ∈ rows)
    (hmiss : sequence_id_is_missing r.sequence_id = true)
    (hfp : r.file_path = some (PyVal.vstr p)) :
    (∃ l, lookupG ("singleton::" ++ p) (group_sequences true rows) = some l ∧ r ∈ l)
    ∧ (∀ k l, lookupG k (group_sequences true rows) = some l → r ∈ l →
        k = "singleton::" ++ p)
    ∧ (∀ r' p' k' l', r' ∈ rows → sequence_id_is_missing r'.sequence_id = true →
        r'.file_path = some (PyVal.vstr p') → p' ≠ p →
        lookupG k' (group_sequences true rows) = some l' → r' ∈ l' →
        k' ≠ "singleton::" ++ p) := by
  have hkey : groupKey r = "singleton::" ++ p := by
    simp [groupKey, hmiss, hfp, pyStr]
  refine ⟨?_, ?_, ?_⟩
  · have hne : ¬(rows.filter
        (fun x => decide (groupKey x = "singleton::" ++ p))).isEmpty := by
      have hrf : r ∈ rows.filter
          (fun x => decide (groupKey x = "singleton::" ++ p)) :=
        List.mem_filter.mpr ⟨hmem, by simpa using hkey⟩
      intro hempty
      rw [List.isEmpty_iff] at hempty
      rw [hempty] at hrf
      cases hrf
    refine ⟨pySortRows (rows.filter
        (fun x => decide (groupKey x = "singleton::" ++ p))), ?_, ?_⟩
    · rw [group_sequences_true_lookup, if_neg hne]
    · exact mem_pySortRows.mpr (List.mem_filter.mpr ⟨hmem, by simpa using hkey⟩)
  · intro k l hl hr
    have := (mem_group_sequences_true hl).mp hr
    rw [← this.2, hkey]
  · intro r' p' k' l' hmem' hmiss' hfp' hne hl' hr'
    have hmemkey := (mem_group_sequences_true hl').mp hr'
    have hkey' : groupKey r' = "singleton::" ++ p' := by
      simp [groupKey, hmiss', hfp', pyStr]
    intro hcontra
    rw [hcontra, hkey'] at hmemkey
    exact hne (string_append_left_cancel hmemkey.2)

/-- Witness for C1 at the concrete input `[rowNanId]` (NaN id, path
`c.jpg`): the row lands exactly in the group `"singleton::c.jpg"`. -/
theorem missing_id_singleton_key_witness :
    (∃ l, lookupG ("singleton::" ++ "c.jpg") (group_sequences true [rowNanId]) = some l
        ∧ rowNanId ∈ l)
    ∧ (∀ k l, lookupG k (group_sequences true [rowNanId]) = some l → rowNanId ∈ l →
        k = "singleton::" ++ "c.jpg")
    ∧ (∀ r' p' k' l', r' ∈ [rowNanId] → sequence_id_is_missing r'.sequence_id = true →
        r'.file_path = some (PyVal.vstr p') → p' ≠ "c.jpg" →
        lookupG k' (group_sequences true [rowNanId]) = some l' → r' ∈ l' →
        k' ≠ "singleton::" ++ "c.jpg") :=
  missing_id_singleton_key [rowNanId] rowNanId "c.jpg" (by decide) (by decide) (by decide)

/-! ## Claim C2 -/

/-- C2 counterexample: in the sequence `s` built from a row with no
`sequence_order` followed by a row with order `2000000000`, the
unparsable-order row comes FIRST (its sentinel key is `1e9`, which is
smaller than the parsed order `2e9`), refuting "every row whose
sequence_order is absent or fails numeric parsing appears after all
rows with a successfully parsed order". -/
theorem sequence_order_sentinel_counterexample :
    lookupG "s" (group_sequences true [rowOrderMissing, rowOrderHuge]) =
        some [rowOrderMissing, rowOrderHuge]
      ∧ pyFloatOfVal rowOrderMissing.sequence_order = none
      ∧ pyFloatOfVal rowOrderHuge.sequence_order = some (PyFloat.finite 2000000000)
      ∧ ¬(∀ l, lookupG "s" (group_sequences true [rowOrderMissing, rowOrderHuge]) = some l →
          ∀ i j : Fin l.length,
            pyFloatOfVal ((l.get i).sequence_order) ≠ none →
            pyFloatOfVal ((l.get j).sequence_order) = none →
            (i : Nat) < (j : Nat)) := by
  refine ⟨by decide, by decide, by decide, ?_⟩
  intro h
  have h2 := h [rowOrderMissing, rowOrderHuge] (by decide)
    ⟨1, by decide⟩ ⟨0, by decide⟩ (by decide) (by decide)
  exact absurd h2 (by decide)

/-- C2 (amended): within each sequence the rows are stable-sorted
ascending by the key "`float(sequence_order)`, with the sentinel `1e9`
when parsing raises"; hence rows appear in ascending key order, rows
with equal keys (in particular all unparsable rows) keep their original
relative input order, and an unparsable row appears after every row
whose parsed order is `< 1e9` (not after every parsed row: the sentinel
is `1e9`, not infinity) — all provided no sort key is NaN (with a NaN
key CPython's sort order is unspecified). -/
theorem sequence_rows_sorted_stable (rows : List Row) (k : String) (l : List Row)
    (hl : lookupG k (group_sequences true rows) = some l)
    (hnan : ∀ r ∈ rows, (sort_key r).isNan = false) :
    List.Pairwise RowLeP l
    ∧ (∀ c, l.filter (fun r => decide (sort_key r = c)) =
        (rows.filter (fun r => decide (groupKey r = k))).filter
          (fun r => decide (sort_key r = c)))
    ∧ List.Perm l (rows.filter (fun r => decide (groupKey r = k)))
    ∧ (∀ i j : Fin l.length,
        pyFloatLe (sort_key (l.get i)) (sort_key (l.get j)) = true →
        pyFloatLe (sort_key (l.get j)) (sort_key (l.get i)) = false →
        (i : Nat) < (j : Nat))
    ∧ (∀ i j : Fin l.length,
        (∃ q : ℚ, pyFloatOfVal ((l.get i).sequence_order) = some (PyFloat.finite q)
          ∧ q < 10 ^ 9) →
        pyFloatOfVal ((l.get j).sequence_order) = none →
        (i : Nat) < (j : Nat)) := by
  rw [group_sequences_true_lookup] at hl
  by_cases hf : (rows.filter (fun r => decide (groupKey r = k))).isEmpty
  · rw [if_pos hf] at hl; cases hl
  rw [if_neg hf] at hl
  obtain rfl : pySortRows (rows.filter (fun r => decide (groupKey r = k))) = l :=
    Option.some.injEq _ _ ▸ hl ▸ rfl
  have hmemnan : ∀ x ∈ rows.filter (fun r => decide (groupKey r = k)),
      (sort_key x).isNan = false :=
    fun x hx => hnan x (List.mem_filter.mp hx).1
  have hpair : List.Pairwise RowLeP
      (pySortRows (rows.filter (fun r => decide (groupKey r = k)))) :=
    pairwise_pySortRows hmemnan
  refine ⟨hpair, ?_, pySortRows_perm _, ?_, ?_⟩
  · intro c
    exact filter_pySortRows hmemnan
  · intro i j h1 h2
    rcases Nat.lt_trichotomy (i : Nat) (j : Nat) with hlt | heq | hgt
    · exact hlt
    · exfalso
      have : i = j := Fin.ext heq
      subst this
      rw [h1] at h2
      cases h2
    · exfalso
      have := List.pairwise_iff_get.mp hpair j i (by exact hgt)
      unfold RowLeP rowLe at this
      rw [this] at h2
      cases h2
  · intro i j hi hj
    obtain ⟨q, hq, hqlt⟩ := hi
    have hki : sort_key ((pySortRows (rows.filter
        (fun r => decide (groupKey r = k)))).get i) = PyFloat.finite q := by
      unfold sort_key
      rw [hq]
    have hkj : sort_key ((pySortRows (rows.filter
        (fun r => decide (groupKey r = k)))).get j) = PyFloat.finite (10 ^ 9 : ℚ) := by
      unfold sort_key
      rw [hj]
    rcases Nat.lt_trichotomy (i : Nat) (j : Nat) with hlt | heq | hgt
    · exact hlt
    · exfalso
      have : i = j := Fin.ext heq
      subst this
      rw [hki] at hkj
      have : q = (10 ^ 9 : ℚ) := by injection hkj
      exact absurd this (ne_of_lt hqlt)
    · exfalso
      have := List.pairwise_iff_get.mp hpair j i (by exact hgt)
      unfold RowLeP rowLe at this
      rw [hki, hkj] at this
      simp only [pyFloatLe, decide_eq_true_eq] at this
      exact absurd this (not_le.mpr hqlt)

/-- Witness for the amended C2 at the two-row sequence `s1` (orders 2
then 1): the returned list is sorted, stable and a permutation of the
matching rows. -/
theorem sequence_rows_sorted_stable_witness :
    List.Pairwise RowLeP [rowB, rowA]
    ∧ (∀ c, ([rowB, rowA]).filter (fun r => decide (sort_key r = c)) =
        (([rowA, rowB]).filter (fun r => decide (groupKey r = "s1"))).filter
          (fun r => decide (sort_key r = c)))
    ∧ List.Perm [rowB, rowA] (([rowA, rowB]).filter (fun r => decide (groupKey r = "s1")))
    ∧ (∀ i j : Fin (List.length [rowB, rowA]),
        pyFloatLe (sort_key (List.get [rowB, rowA] i)) (sort_key (List.get [rowB, rowA] j)) = true →
        pyFloatLe (sort_key (List.get [rowB, rowA] j)) (sort_key (List.get [rowB, rowA] i)) = false →
        (i : Nat) < (j : Nat))
    ∧ (∀ i j : Fin (List.length [rowB, rowA]),
        (∃ q : ℚ, pyFloatOfVal ((List.get [rowB, rowA] i).sequence_order) = some (PyFloat.finite q)
          ∧ q < 10 ^ 9) →
        pyFloatOfVal ((List.get [rowB, rowA] j).sequence_order) = none →
        (i : Nat) < (j : Nat)) :=
  sequence_rows_sorted_stable [rowA, rowB] "s1" [rowB, rowA] (by decide) (by decide)

/-! ## Claim C3 -/

/-- C3 counterexample: with threading disabled, two distinct rows sharing
the file path `d.jpg` collide in the dict comprehension — the second
row overwrites the first, which then appears in NO sequence.  So
`group_sequences` does not partition its input in disabled mode. -/
theorem grouping_partition_counterexample :
    group_sequences false [rowDupA, rowDupB] = [("d.jpg", [rowDupB])]
    ∧ rowDupA ∉ ((group_sequences false [rowDupA, rowDupB]).map Prod.snd).flatten := by
  refine ⟨by decide, by decide⟩

/-- C3 (amended): empty input yields an empty mapping in both modes; in
threads-ENABLED mode `group_sequences` partitions its input (the groups'
concatenation is a permutation of the rows, keys are unique, and a
group's members are exactly the rows carrying its key); in disabled mode
the partition into per-row singletons keyed by
`str(row.get("file_path", f"seq_{idx}"))` holds PROVIDED those keys are
pairwise distinct (rows duplicating a file path are overwritten and
lost, as the counterexample shows). -/
theorem group_sequences_partition (rows : List Row) :
    (∀ e : Bool, group_sequences e [] = [])
    ∧ List.Perm ((group_sequences true rows).map Prod.snd).flatten rows
    ∧ ((group_sequences true rows).map Prod.fst).Nodup
    ∧ (∀ k l, lookupG k (group_sequences true rows) = some l →
        ∀ r ∈ l, r ∈ rows ∧ groupKey r = k)
    ∧ ((rows.enum.map (fun p => noThreadKey p.1 p.2)).Nodup →
        group_sequences false rows = rows.enum.map (fun p => (noThreadKey p.1 p.2, [p.2]))) := by
  refine ⟨?_, ?_, ?_, ?_, ?_⟩
  · intro e
    simp [group_sequences]
  · by_cases hrows : rows.isEmpty
    · have hnil : rows = [] := by
        cases rows with
        | nil => rfl
        | cons a t => simp at hrows
      subst hnil
      simp [group_sequences]
    · have h1 : group_sequences true rows =
          (groupRows rows).map (fun g => (g.1, pySortRows g.2)) := by
        simp [group_sequences, hrows]
      rw [h1]
      refine (flatten_map_sort_perm (groupRows rows)).trans ?_
      have := join_foldl_appendGroup rows []
      simpa [groupRows] using this
  · by_cases hrows : rows.isEmpty
    · have hnil : rows = [] := by
        cases rows with
        | nil => rfl
        | cons a t => simp at hrows
      subst hnil
      simp [group_sequences]
    · have h1 : group_sequences true rows =
          (groupRows rows).map (fun g => (g.1, pySortRows g.2)) := by
        simp [group_sequences, hrows]
      rw [h1, keys_map_sort]
      exact nodup_keys_foldl_appendGroup rows [] (by simp)
  · intro k l hl r hr
    exact (mem_group_sequences_true hl).mp hr
  · intro hnd
    by_cases hrows : rows.isEmpty
    · have hnil : rows = [] := by
        cases rows with
        | nil => rfl
        | cons a t => simp at hrows
      subst hnil
      simp [group_sequences]
    · have h1 : group_sequences false rows = noThreadGroups rows := by
        simp [group_sequences, hrows]
      rw [h1, noThreadGroups_eq rows hnd]

/-- Witness for the amended C3 at the concrete two-row input
`[rowA, rowB]` (distinct file paths). -/
theorem group_sequences_partition_witness :
    (∀ e : Bool, group_sequences e [] = [])
    ∧ List.Perm ((group_sequences true [rowA, rowB]).map Prod.snd).flatten [rowA, rowB]
    ∧ ((group_sequences true [rowA, rowB]).map Prod.fst).Nodup
    ∧ (∀ k l, lookupG k (group_sequences true [rowA, rowB]) = some l →
        ∀ r ∈ l, r ∈ [rowA, rowB] ∧ groupKey r = k)
    ∧ (((List.enum [rowA, rowB]).map (fun p => noThreadKey p.1 p.2)).Nodup →
        group_sequences false [rowA, rowB] =
          (List.enum [rowA, rowB]).map (fun p => (noThreadKey p.1 p.2, [p.2]))) :=
  group_sequences_partition [rowA, rowB]

/-! ## Claim C4 -/

/-- C4 counterexample: a cached record whose `error` is the empty string
is non-null, yet Python truthiness makes the pipeline treat it as "no
error": with no usable text it is still served from the cache, refuting
"rejected iff error is non-null AND no text field has content". -/
theorem cache_validity_counterexample :
    cachedEmptyErrorRec.error = some (PyVal.vstr "")
    ∧ cachedHasText cachedEmptyErrorRec = false
    ∧ cacheRecordBad cachedEmptyErrorRec = false
    ∧ ocrStep (some (diskWith "p.jpg" cachedEmptyErrorRec)) true provConst "root" "p.jpg"
        = (cachedEmptyErrorRec, true) :=
  ⟨by decide, by decide, by decide, by decide⟩

/-- C4 (amended): a successfully loaded cached record is rejected
(treated as a miss, triggering a fresh provider call) iff its `error`
value is TRUTHY (non-null and non-empty/non-zero) AND none of
`clean_text`, `raw_text`, `ocr_text` contains non-whitespace content;
otherwise it is served as-is.  In particular error `"x"` with all-empty
text is never served, and error `"x"` with non-empty `clean_text` is
served. -/
theorem cache_validity_policy (c : OcrRecord) (disk : CacheDisk) (root rel : String)
    (prov : String → OcrRecord)
    (hdisk : disk (cache_key_for_path rel) = some c) :
    (cacheRecordBad c = true ↔ (pyTruthyOpt c.error = true ∧ cachedHasText c = false))
    ∧ ocrStep (some disk) true prov root rel =
        (if cacheRecordBad c then (prov (root ++ "/" ++ rel), false) else (c, true))
    ∧ cacheRecordBad cachedErrorNoTextRec = true
    ∧ cacheRecordBad cachedErrorWithTextRec = false := by
  refine ⟨?_, ?_, by decide, by decide⟩
  · unfold cacheRecordBad
    cases pyTruthyOpt c.error <;> cases cachedHasText c <;> simp
  · simp only [ocrStep, hdisk]
    by_cases hb : cacheRecordBad c = true
    · simp [hb]
    · simp [hb]

/-- Witness for the amended C4: a one-record cache holding the
error-with-text record under key `p.jpg`. -/
theorem cache_validity_policy_witness :
    (cacheRecordBad cachedErrorWithTextRec = true ↔
      (pyTruthyOpt cachedErrorWithTextRec.error = true
        ∧ cachedHasText cachedErrorWithTextRec = false))
    ∧ ocrStep (some (diskWith "p.jpg" cachedErrorWithTextRec)) true provConst "root" "p.jpg" =
        (if cacheRecordBad cachedErrorWithTextRec
          then (provConst ("root" ++ "/" ++ "p.jpg"), false)
          else (cachedErrorWithTextRec, true))
    ∧ cacheRecordBad cachedErrorNoTextRec = true
    ∧ cacheRecordBad cachedErrorWithTextRec = false :=
  cache_validity_policy cachedErrorWithTextRec (diskWith "p.jpg" cachedErrorWithTextRec)
    "root" "p.jpg" provConst (by decide)

/-! ## Claim C5 -/

theorem replaceSlashChars_inj : ∀ (p q : List Char),
    (∀ c ∈ p, c ≠ '_') → (∀ c ∈ q, c ≠ '_') →
    replaceSlashChars p = replaceSlashChars q → p = q := by
  intro p
  induction p with
  | nil =>
    intro q _ _ h
    cases q with
    | nil => rfl
    | cons d u =>
      exfalso
      by_cases hd : d = '/' <;> simp [replaceSlashChars, hd] at h
  | cons c t ih =>
    intro q hp hq h
    cases q with
    | nil =>
      exfalso
      by_cases hc : c = '/' <;> simp [replaceSlashChars, hc] at h
    | cons d u =>
      by_cases hc : c = '/' <;> by_cases hd : d = '/'
      · subst hc; subst hd
        simp only [replaceSlashChars, if_true, List.cons.injEq, true_and, reduceIte] at h
        rw [ih u (fun x hx => hp x (by simp [hx])) (fun x hx => hq x (by simp [hx])) h]
      · exfalso
        simp only [replaceSlashChars, if_pos hc, if_neg hd, List.cons.injEq] at h
        exact hq d (by simp) h.1.symm
      · exfalso
        simp only [replaceSlashChars, if_pos hd, if_neg hc, List.cons.injEq] at h
        exact hp c (by simp) h.1
      · simp only [replaceSlashChars, if_neg hc, if_neg hd, List.cons.injEq] at h
        rw [h.1, ih u (fun x hx => hp x (by simp [hx])) (fun x hx => hq x (by simp [hx])) h.2]

/-- C5 counterexample: the derivation is not collision-resistant — the
distinct relative paths `a/b` and `a__b` map to the same cache key. -/
theorem cache_key_collision_counterexample :
    make_cache_key "a/b" = make_cache_key "a__b"
    ∧ ("a/b" : String) ≠ "a__b"
    ∧ cache_key_for_path "a/b" = cache_key_for_path "a__b" :=
  ⟨by decide, by decide, by decide⟩

/-- C5 (amended): both implementations derive the key as the relative
path with `/` replaced by `__` plus the `.json` suffix (so
`A/B.jpg ↦ A__B.jpg.json`), and the derivation is injective on paths
containing no underscore — but not on all paths (`a/b` and `a__b`
collide). -/
theorem cache_key_derivation (p q : String)
    (hp : ∀ ch ∈ p.data, ch ≠ '_') (hq : ∀ ch ∈ q.data, ch ≠ '_')
    (h : make_cache_key p = make_cache_key q) :
    (∀ s, cache_key_for_path s = make_cache_key s)
    ∧ cache_key_for_path "A/B.jpg" = "A__B.jpg.json"
    ∧ p = q := by
  refine ⟨fun s => rfl, by decide, ?_⟩
  unfold make_cache_key at h
  have hd := congrArg String.data h
  rw [String.data_append, String.data_append] at hd
  have h2 := List.append_cancel_right hd
  have h3 := replaceSlashChars_inj p.data q.data hp hq h2
  cases p
  cases q
  exact congrArg String.mk h3

/-- Witness for the amended C5 at the underscore-free path `a/b.jpg`. -/
theorem cache_key_derivation_witness :
    (∀ s, cache_key_for_path s = make_cache_key s)
    ∧ cache_key_for_path "A/B.jpg" = "A__B.jpg.json"
    ∧ ("a/b.jpg" : String) = "a/b.jpg" :=
  cache_key_derivation "a/b.jpg" "a/b.jpg" (by decide) (by decide) (by decide)

/-! ## Claim C6 -/

theorem dropWhile_head_false {p : Char → Bool} :
    ∀ {l : List Char} {c : Char} {t : List Char},
      List.dropWhile p l = c :: t → p c = false := by
  intro l
  induction l with
  | nil => intro c t h; cases h
  | cons a u ih =>
    intro c t h
    by_cases ha : p a = true
    · rw [List.dropWhile_cons, if_pos ha] at h
      exact ih h
    · rw [List.dropWhile_cons, if_neg ha] at h
      cases h
      simpa using ha

theorem exists_prefix_dropWhile (p : Char → Bool) (l : List Char) :
    ∃ pre, l = pre ++ List.dropWhile p l := by
  induction l with
  | nil => exact ⟨[], rfl⟩
  | cons a u ih =>
    by_cases ha : p a = true
    · obtain ⟨pre, hpre⟩ := ih
      refine ⟨a :: pre, ?_⟩
      rw [List.dropWhile_cons, if_pos ha, List.cons_append, ← hpre]
    · refine ⟨[], ?_⟩
      rw [List.dropWhile_cons, if_neg ha, List.nil_append]

theorem noWsEnds_stripChars (l : List Char) : noWsEnds (stripChars l) := by
  constructor
  · intro c t h
    exact dropWhile_head_false h
  · intro c t h
    obtain ⟨pre, hpre⟩ :=
      exists_prefix_dropWhile isPyWs ((List.dropWhile isPyWs l.reverse).reverse)
    have hm : List.dropWhile isPyWs l.reverse =
        (stripChars l).reverse ++ pre.reverse := by
      have := congrArg List.reverse hpre
      rw [List.reverse_reverse, List.reverse_append] at this
      exact this
    rw [h] at hm
    exact dropWhile_head_false hm

theorem stripChars_eq_self_of_noWsEnds {l : List Char} (h : noWsEnds l) :
    stripChars l = l := by
  have h2 : List.dropWhile isPyWs l.reverse = l.reverse := by
    cases hr : l.reverse with
    | nil => simp
    | cons c t =>
      rw [List.dropWhile_cons, if_neg (by simp [h.2 c t hr])]
  unfold stripChars
  rw [h2, List.reverse_reverse]
  cases hl : l with
  | nil => simp
  | cons c t =>
    rw [List.dropWhile_cons, if_neg (by simp [h.1 c t hl])]

theorem joinPieces_ne_nil : ∀ (ps : List (List Char)),
    ps ≠ [] → (∀ p ∈ ps, p ≠ []) → joinPieces ps ≠ [] := by
  intro ps
  induction ps with
  | nil => intro h _; exact absurd rfl h
  | cons p t ih =>
    intro _ hall
    cases t with
    | nil =>
      simpa [joinPieces] using hall p (by simp)
    | cons p2 t2 =>
      have hp : p ≠ [] := hall p (by simp)
      simp only [joinPieces]
      intro hcontra
      rcases List.append_eq_nil.mp hcontra with ⟨hp0, _⟩
      exact hp hp0

theorem noWsEnds_joinPieces : ∀ (ps : List (List Char)),
    (∀ p ∈ ps, p ≠ [] ∧ noWsEnds p) → noWsEnds (joinPieces ps) := by
  intro ps
  induction ps with
  | nil =>
    intro _
    refine ⟨fun c t h => ?_, fun c t h => ?_⟩
    · cases h
    · exact absurd h (by simp [joinPieces])
  | cons p t ih =>
    intro hall
    cases t with
    | nil =>
      simpa [joinPieces] using (hall p (by simp)).2
    | cons p2 t2 =>
      have hp := hall p (by simp)
      have hrest : ∀ x ∈ p2 :: t2, x ≠ [] ∧ noWsEnds x :=
        fun x hx => hall x (by simp [hx])
      have hJ : joinPieces (p2 :: t2) ≠ [] :=
        joinPieces_ne_nil _ (by simp) (fun x hx => (hrest x hx).1)
      constructor
      · intro c t h
        cases hpc : p with
        | nil => exact absurd hpc hp.1
        | cons c0 t0 =>
          rw [hpc] at h
          simp only [joinPieces, List.cons_append, List.cons.injEq] at h
          rw [← h.1]
          exact hp.2.1 c0 t0 hpc
      · intro c t h
        cases hJr : (joinPieces (p2 :: t2)).reverse with
        | nil =>
          exact absurd (by simpa using congrArg List.reverse hJr) hJ
        | cons c1 r1 =>
          simp only [joinPieces, List.reverse_append, List.reverse_cons, hJr] at h
          simp only [List.cons_append, List.cons.injEq, List.append_assoc] at h
          rw [← h.1]
          exact (ih hrest).2 c1 r1 hJr

theorem stripChars_joinPieces (ps : List (List Char))
    (h : ∀ p ∈ ps, p ≠ [] ∧ noWsEnds p) :
    stripChars (joinPieces ps) = joinPieces ps :=
  stripChars_eq_self_of_noWsEnds (noWsEnds_joinPieces ps h)

theorem string_mk_data (s : String) : String.mk s.data = s := by
  cases s
  rfl

theorem string_data_eq_nil {s : String} (h : s.data = []) : s = "" := by
  cases s with
  | mk d =>
    simp only at h
    subst h
    decide

theorem pieceOf_eq {v : Option PyVal} {s : String} (h : pieceOf v = some s) :
    s.data ≠ [] ∧ noWsEnds s.data := by
  cases v with
  | none => cases h
  | some pv =>
    cases pv with
    | vnone => cases h
    | vint n => cases h
    | vfloat f => cases h
    | vstr s0 =>
      by_cases h0 : pyStrip s0 = ""
      · rw [pieceOf, if_pos h0] at h
        cases h
      · rw [pieceOf, if_neg h0] at h
        obtain rfl : pyStrip s0 = s := Option.some.injEq _ _ ▸ h ▸ rfl
        constructor
        · intro hd
          exact h0 (string_data_eq_nil hd)
        · have hds : (pyStrip s0).data = stripChars s0.data := rfl
          rw [hds]
          exact noWsEnds_stripChars s0.data

/-- C6: `_build_search_text` always yields a (non-null) string equal to
the blank-line-joined concatenation of exactly the non-empty trimmed
entries among (a) the enrichment-provided `search_text`, (b) the
manifest `notes`, (c) the OCR text resolved as
`ocr_text or clean_text or raw_text` — the final strip is a no-op since
each entry is already trimmed and non-empty; and when all three sources
are absent or whitespace-only the result is the empty string. -/
theorem search_text_canonical (r : SearchFields) :
    build_search_text r = joinStrings (searchEntries r)
    ∧ (pieceOf r.search_text = none → pieceOf r.notes = none →
        pieceOf (resolvedOcr r) = none → build_search_text r = "") := by
  constructor
  · unfold build_search_text joinStrings pyStrip
    have hmk : ∀ (l : List Char), (String.mk l).data = l := fun l => rfl
    rw [hmk]
    congr 1
    apply stripChars_joinPieces
    intro p hp
    rw [List.mem_map] at hp
    obtain ⟨s, hs, rfl⟩ := hp
    unfold searchEntries at hs
    rw [List.mem_filterMap] at hs
    obtain ⟨o, ho, hid⟩ := hs
    obtain rfl : o = some s := hid
    simp only [List.mem_cons, List.not_mem_nil, or_false] at ho
    rcases ho with h | h | h <;>
      exact pieceOf_eq h.symm
  · intro h1 h2 h3
    unfold build_search_text searchEntries
    rw [h1, h2, h3]
    decide

/-- Witness for C6: evaluating both conjuncts at a concrete record with
all three sources present. -/
theorem search_text_canonical_witness :
    build_search_text searchWitnessRec = joinStrings (searchEntries searchWitnessRec)
    ∧ (pieceOf searchWitnessRec.search_text = none →
       pieceOf searchWitnessRec.notes = none →
       pieceOf (resolvedOcr searchWitnessRec) = none →
       build_search_text searchWitnessRec = "") :=
  search_text_canonical searchWitnessRec

/-! ## Claim C7 -/

/-- C7: `run_pipeline` fails iff the manifest is non-empty and lacks a
required column; an empty manifest short-circuits to `([], [])` with
zero OCR / extraction / summarize provider calls; and the image root's
existence (only logged) never changes the result. -/
theorem run_pipeline_validation (m : Manifest) (root : String)
    (cacheDir : Option CacheDisk) (useCache saveCache : Bool)
    (ocrProv : String → OcrRecord) (extract : PyVal → Row → ExtResult)
    (summarize : List String → SeqMeta) (threadsEnabled rootExists : Bool) :
    ((∃ e, run_pipeline m rootExists root cacheDir useCache saveCache
        ocrProv extract summarize threadsEnabled = Except.error e)
      ↔ (manifestEmpty m = false ∧ missingCols m ≠ []))
    ∧ (manifestEmpty m = true →
        run_pipeline m rootExists root cacheDir useCache saveCache
          ocrProv extract summarize threadsEnabled = Except.ok ([], [], 0, 0, 0))
    ∧ run_pipeline m true root cacheDir useCache saveCache
        ocrProv extract summarize threadsEnabled
      = run_pipeline m false root cacheDir useCache saveCache
          ocrProv extract summarize threadsEnabled := by
  refine ⟨?_, ?_, rfl⟩
  · by_cases he : manifestEmpty m = true
    · simp only [run_pipeline, if_pos he, he]
      constructor
      · intro ⟨e, hcontra⟩
        cases hcontra
      · intro ⟨hfalse, _⟩
        cases hfalse
    · have he' : manifestEmpty m = false := by
        cases h : manifestEmpty m
        · rfl
        · exact absurd h he
      by_cases hm : missingCols m = []
      · have hv : validateManifest m = Except.ok () := by
          simp [validateManifest, hm]
        constructor
        · intro ⟨e, hcontra⟩
          simp only [run_pipeline, if_neg he, hv] at hcontra
          cases hcontra
        · intro ⟨_, hne⟩
          exact absurd hm hne
      · have hv : validateManifest m = Except.error
            ("Manifest is missing required columns: "
              ++ String.intercalate ", " (missingCols m)
              ++ ". Expected at least: 'file_path', 'category', 'doc_type'.") := by
          simp [validateManifest, hm]
        constructor
        · intro _
          exact ⟨he', hm⟩
        · intro _
          refine ⟨"Manifest is missing required columns: "
              ++ String.intercalate ", " (missingCols m)
              ++ ". Expected at least: 'file_path', 'category', 'doc_type'.", ?_⟩
          simp only [run_pipeline, if_neg he, hv]
  · intro he
    simp only [run_pipeline, if_pos he]

/-- Witness for C7 at an empty manifest with all providers concrete. -/
theorem run_pipeline_validation_witness :
    ((∃ e, run_pipeline emptyManifest true "root" none true true
        provConst extractConst summarizeConst true = Except.error e)
      ↔ (manifestEmpty emptyManifest = false ∧ missingCols emptyManifest ≠ []))
    ∧ (manifestEmpty emptyManifest = true →
        run_pipeline emptyManifest true "root" none true true
          provConst extractConst summarizeConst true = Except.ok ([], [], 0, 0, 0))
    ∧ run_pipeline emptyManifest true "root" none true true
        provConst extractConst summarizeConst true
      = run_pipeline emptyManifest false "root" none true true
          provConst extractConst summarizeConst true :=
  run_pipeline_validation emptyManifest "root" none true true
    provConst extractConst summarizeConst true true

/-! ## Claim C8 -/

/-- C8: each sequence's `SequenceSummary` counts ALL member rows in
`num_pages`; `summary` always aliases `sequence_summary`; and when no
member contributes usable text, both summary strings are empty and the
summarize provider is never consulted (the record does not depend on
it). -/
theorem sequence_summary_shape (pm : List (String × Page))
    (summarize : List String → SeqMeta) (g : String × List Row) :
    (summarizeStep summarize pm g).num_pages = g.2.length
    ∧ (summarizeStep summarize pm g).sequence_id = g.1
    ∧ (summarizeStep summarize pm g).summary =
        (summarizeStep summarize pm g).sequence_summary
    ∧ ((seqTexts pm g.2).isEmpty = true →
        (summarizeStep summarize pm g).sequence_summary = ""
        ∧ (summarizeStep summarize pm g).sequence_search_text = ""
        ∧ ∀ (summarize' : List String → SeqMeta),
            summarizeStep summarize pm g = summarizeStep summarize' pm g) := by
  refine ⟨rfl, rfl, rfl, ?_⟩
  intro hempty
  refine ⟨?_, ?_, ?_⟩
  · simp [summarizeStep, hempty]
  · simp [summarizeStep, hempty]
  · intro summarize'
    simp [summarizeStep, hempty]

/-- Witness for C8 at a one-row sequence whose page is not in the
lookup table (so it contributes no text). -/
theorem sequence_summary_shape_witness :
    (summarizeStep summarizeConst [] ("s", [rowA])).num_pages = [rowA].length
    ∧ (summarizeStep summarizeConst [] ("s", [rowA])).sequence_id = "s"
    ∧ (summarizeStep summarizeConst [] ("s", [rowA])).summary =
        (summarizeStep summarizeConst [] ("s", [rowA])).sequence_summary
    ∧ ((seqTexts [] [rowA]).isEmpty = true →
        (summarizeStep summarizeConst [] ("s", [rowA])).sequence_summary = ""
        ∧ (summarizeStep summarizeConst [] ("s", [rowA])).sequence_search_text = ""
        ∧ ∀ (summarize' : List String → SeqMeta),
            summarizeStep summarizeConst [] ("s", [rowA]) =
              summarizeStep summarize' [] ("s", [rowA])) :=
  sequence_summary_shape [] summarizeConst ("s", [rowA])

/-! ## Claim C10 -/

/-- C10: with no backend client and mock mode on, `run_page` on an
existing file returns the deterministic mock record whose every listed
field depends only on the path's basename — so two calls on paths with
equal basenames return identical records. -/
theorem mock_run_page_deterministic (fileExists : String → Bool)
    (model_name p1 p2 : String)
    (h1 : fileExists p1 = true) (h2 : fileExists p2 = true)
    (hb : basename p1 = basename p2) :
    run_page fileExists none true model_name p1 =
      { raw_text := some (PyVal.vstr ("[MOCK_OCR] Text for " ++ basename p1)),
        clean_text := some (PyVal.vstr ("[MOCK_OCR] Text for " ++ basename p1)),
        ocr_text := some (PyVal.vstr ("[MOCK_OCR] Text for " ++ basename p1)),
        ocr_text_length :=
          some (PyVal.vint (("[MOCK_OCR] Text for " ++ basename p1).length : Int)),
        confidence := some (PyVal.vfloat (PyFloat.finite 0)),
        error := some PyVal.vnone,
        model := some (PyVal.vstr model_name),
        engine := some (PyVal.vstr "mock") }
    ∧ run_page fileExists none true model_name p1 =
        run_page fileExists none true model_name p2 := by
  constructor
  · simp [run_page, h1, mock_response]
  · simp [run_page, h1, h2, mock_response, hb]

/-- Witness for C10: `dir/img.jpg` and `other/img.jpg` share the
basename `img.jpg` and yield identical mock records. -/
theorem mock_run_page_deterministic_witness :
    run_page fsAll none true "gemini-1.5-flash" "dir/img.jpg" =
      { raw_text := some (PyVal.vstr ("[MOCK_OCR] Text for " ++ basename "dir/img.jpg")),
        clean_text := some (PyVal.vstr ("[MOCK_OCR] Text for " ++ basename "dir/img.jpg")),
        ocr_text := some (PyVal.vstr ("[MOCK_OCR] Text for " ++ basename "dir/img.jpg")),
        ocr_text_length :=
          some (PyVal.vint (("[MOCK_OCR] Text for " ++ basename "dir/img.jpg").length : Int)),
        confidence := some (PyVal.vfloat (PyFloat.finite 0)),
        error := some PyVal.vnone,
        model := some (PyVal.vstr "gemini-1.5-flash"),
        engine := some (PyVal.vstr "mock") }
    ∧ run_page fsAll none true "gemini-1.5-flash" "dir/img.jpg" =
        run_page fsAll none true "gemini-1.5-flash" "other/img.jpg" :=
  mock_run_page_deterministic fsAll "gemini-1.5-flash" "dir/img.jpg" "other/img.jpg"
    (by decide) (by decide) (by decide)

/-! ## Claim C9: number-literal lemmas -/

theorem natCharsAux_eq : ∀ (n : Nat), ∀ (fuel : Nat) (acc : List Char), n < fuel →
    natCharsAux fuel n acc = natChars n ++ acc := by
  intro n
  induction n using Nat.strong_induction_on with
  | _ n ih =>
    intro fuel acc hfuel
    match fuel, hfuel with
    | f + 1, hfuel =>
      by_cases h10 : n < 10
      · simp [natCharsAux, natChars, h10]
      · have hdiv : n / 10 < n := Nat.div_lt_self (by omega) (by omega)
        have hf : n / 10 < f := by omega
        have hstep : natChars n = natChars (n / 10) ++ [Char.ofNat (48 + n % 10)] := by
          unfold natChars
          simp only [natCharsAux, if_neg h10]
          rw [ih (n / 10) hdiv n _ (by omega)]
          have hu : natChars (n / 10) =
              (if n / 10 < 10 then [Char.ofNat (48 + n / 10)]
                else natCharsAux (n / 10) (n / 10 / 10) [Char.ofNat (48 + n / 10 % 10)]) := by
            unfold natChars
            simp only [natCharsAux]
          rw [hu]
        simp only [natCharsAux, if_neg h10]
        rw [ih (n / 10) hdiv f _ hf, hstep]
        simp

theorem natChars_ne_nil (n : Nat) : natChars n ≠ [] := by
  unfold natChars
  by_cases h10 : n < 10
  · simp [natCharsAux, h10]
  · simp only [natCharsAux, if_neg h10]
    rw [natCharsAux_eq (n / 10) n _ (by
      have := Nat.div_lt_self (show 0 < n by omega) (show 1 < 10 by omega)
      omega)]
    simp

theorem digit_char_isDigit {d : Nat} (h : d < 10) :
    isDigitCh (Char.ofNat (48 + d)) = true := by
  interval_cases d <;> decide

theorem digit_char_toNat {d : Nat} (h : d < 10) :
    (Char.ofNat (48 + d)).toNat = 48 + d := by
  interval_cases d <;> decide

theorem natChars_digits (n : Nat) : ∀ c ∈ natChars n, isDigitCh c = true := by
  induction n using Nat.strong_induction_on with
  | _ n ih =>
    intro c hc
    unfold natChars at hc
    by_cases h10 : n < 10
    · simp only [natCharsAux, if_pos h10] at hc
      rcases List.mem_singleton.mp hc with rfl
      exact digit_char_isDigit h10
    · simp only [natCharsAux, if_neg h10] at hc
      have hdiv : n / 10 < n := Nat.div_lt_self (by omega) (by omega)
      rw [natCharsAux_eq (n / 10) n _ (by omega)] at hc
      rcases List.mem_append.mp hc with h | h
      · exact ih (n / 10) hdiv c h
      · rcases List.mem_singleton.mp h with rfl
        exact digit_char_isDigit (Nat.mod_lt _ (by omega))

theorem digitsVal_append_singleton (l : List Char) (c : Char) :
    digitsVal (l ++ [c]) = digitsVal l * 10 + (c.toNat - 48) := by
  unfold digitsVal
  rw [List.foldl_append]
  rfl

theorem digitsVal_natChars (n : Nat) : digitsVal (natChars n) = n := by
  induction n using Nat.strong_induction_on with
  | _ n ih =>
    unfold natChars
    by_cases h10 : n < 10
    · simp only [natCharsAux, if_pos h10]
      unfold digitsVal
      simp [digit_char_toNat h10]
    · simp only [natCharsAux, if_neg h10]
      have hdiv : n / 10 < n := Nat.div_lt_self (by omega) (by omega)
      rw [natCharsAux_eq (n / 10) n _ (by omega)]
      rw [digitsVal_append_singleton, ih (n / 10) hdiv,
        digit_char_toNat (Nat.mod_lt _ (show 0 < 10 by omega))]
      omega

theorem digitsVal_replicate_zero (k : Nat) (l : List Char) :
    digitsVal (List.replicate k '0' ++ l) = digitsVal l := by
  induction k with
  | zero => simp
  | succ k ihk =>
    rw [List.replicate_succ, List.cons_append]
    unfold digitsVal
    simp only [List.foldl_cons]
    have h0 : (0 : Nat) * 10 + ('0'.toNat - 48) = 0 := by decide
    rw [h0]
    exact ihk

/-! ## Claim C9: scanning lemmas -/

theorem takeWhile_all_append {p : Char → Bool} :
    ∀ {a : List Char} (b : List Char), (∀ c ∈ a, p c = true) →
      (a ++ b).takeWhile p = a ++ b.takeWhile p := by
  intro a
  induction a with
  | nil => intro b _; simp
  | cons c t ih =>
    intro b ha
    rw [List.cons_append, List.takeWhile_cons, if_pos (ha c (by simp)), List.cons_append]
    rw [ih b (fun x hx => ha x (by simp [hx]))]

theorem dropWhile_all_append {p : Char → Bool} :
    ∀ {a : List Char} (b : List Char), (∀ c ∈ a, p c = true) →
      (a ++ b).dropWhile p = b.dropWhile p := by
  intro a
  induction a with
  | nil => intro b _; simp
  | cons c t ih =>
    intro b ha
    rw [List.cons_append, List.dropWhile_cons, if_pos (ha c (by simp))]
    exact ih b (fun x hx => ha x (by simp [hx]))

theorem takeWhile_head_false {p : Char → Bool} {l : List Char}
    (h : ∀ c t, l = c :: t → p c = false) : l.takeWhile p = [] := by
  cases hl : l with
  | nil => simp
  | cons c t => rw [List.takeWhile_cons, if_neg (by simp [h c t hl])]

theorem dropWhile_head_false' {p : Char → Bool} {l : List Char}
    (h : ∀ c t, l = c :: t → p c = false) : l.dropWhile p = l := by
  cases hl : l with
  | nil => simp
  | cons c t => rw [List.dropWhile_cons, if_neg (by simp [h c t hl])]



/-! ## Claim C9: string-literal roundtrip -/

theorem hexVal_hexDigit {d : Nat} (h : d < 16) : hexVal (hexDigit d) = some d := by
  interval_cases d <;> decide

theorem psb_quote (r : List Char) : parseStrBody ('"' :: r) = some ([], r) := by
  rw [parseStrBody.eq_def]
  simp

theorem psb_esc (e ch : Char) (r : List Char) (he : ¬e = 'u') (hch : unescapeChar e = some ch) :
    parseStrBody ('\\' :: e :: r) = (parseStrBody r).map (fun p => (ch :: p.1, p.2)) := by
  rw [parseStrBody.eq_def]
  simp only [if_neg he, hch, reduceIte]
  rw [if_neg (show ¬('\\' = '"') from by decide)]

theorem psb_raw (c : Char) (r : List Char) (h1 : ¬c = '"') (h2 : ¬c = '\\')
    (h8 : ¬c.toNat < 32) :
    parseStrBody (c :: r) = (parseStrBody r).map (fun p => (c :: p.1, p.2)) := by
  rw [parseStrBody.eq_def]
  simp only [if_neg h1, if_neg h2, if_neg h8]

theorem psb_u (x y : Char) (cv dv : Nat) (r : List Char)
    (hx : hexVal x = some cv) (hy : hexVal y = some dv) :
    parseStrBody ('\\' :: 'u' :: '0' :: '0' :: x :: y :: r) =
      (parseStrBody r).map
        (fun p => (Char.ofNat (((0 * 16 + 0) * 16 + cv) * 16 + dv) :: p.1, p.2)) := by
  rw [parseStrBody.eq_def]
  simp only [reduceIte, hx, hy, show hexVal '0' = some 0 from rfl]
  rw [if_neg (show ¬('\\' = '"') from by decide)]

theorem parseStrBody_escape :
    ∀ (l : List Char) (rest : List Char),
      parseStrBody ((l.map escapeChar).flatten ++ '"' :: rest) = some (l, rest) := by
  intro l
  induction l with
  | nil => intro rest; exact psb_quote rest
  | cons c t ih =>
    intro rest
    simp only [List.map_cons, List.flatten_cons, List.append_assoc]
    by_cases h1 : c = '"'
    · subst h1
      rw [show escapeChar '"' = ['\\', '"'] from rfl, List.cons_append, List.cons_append,
        List.nil_append, psb_esc '"' '"' _ (by decide) (by decide), ih rest]
      rfl
    · by_cases h2 : c = '\\'
      · subst h2
        rw [show escapeChar '\\' = ['\\', '\\'] from rfl, List.cons_append, List.cons_append,
          List.nil_append, psb_esc '\\' '\\' _ (by decide) (by decide), ih rest]
        rfl
      · by_cases h3 : c = '\n'
        · subst h3
          rw [show escapeChar '\n' = ['\\', 'n'] from rfl, List.cons_append, List.cons_append,
            List.nil_append, psb_esc 'n' '\n' _ (by decide) (by decide), ih rest]
          rfl
        · by_cases h4 : c = '\t'
          · subst h4
            rw [show escapeChar '\t' = ['\\', 't'] from rfl, List.cons_append, List.cons_append,
              List.nil_append, psb_esc 't' '\t' _ (by decide) (by decide), ih rest]
            rfl
          · by_cases h5 : c = '\x0d'
            · subst h5
              rw [show escapeChar '\x0d' = ['\\', 'r'] from rfl, List.cons_append,
                List.cons_append, List.nil_append,
                psb_esc 'r' '\x0d' _ (by decide) (by decide), ih rest]
              rfl
            · by_cases h6 : c = '\x08'
              · subst h6
                rw [show escapeChar '\x08' = ['\\', 'b'] from rfl, List.cons_append,
                  List.cons_append, List.nil_append,
                  psb_esc 'b' '\x08' _ (by decide) (by decide), ih rest]
                rfl
              · by_cases h7 : c = '\x0c'
                · subst h7
                  rw [show escapeChar '\x0c' = ['\\', 'f'] from rfl, List.cons_append,
                    List.cons_append, List.nil_append,
                    psb_esc 'f' '\x0c' _ (by decide) (by decide), ih rest]
                  rfl
                · by_cases h8 : c.toNat < 32
                  · rw [show escapeChar c =
                        ['\\', 'u', '0', '0', hexDigit (c.toNat / 16), hexDigit (c.toNat % 16)] by
                      simp [escapeChar, h1, h2, h3, h4, h5, h6, h7, h8]]
                    simp only [List.cons_append, List.nil_append]
                    rw [psb_u _ _ (c.toNat / 16) (c.toNat % 16) _
                      (hexVal_hexDigit (by omega))
                      (hexVal_hexDigit (Nat.mod_lt _ (by omega))), ih rest]
                    have hv : (((0 * 16 + 0) * 16 + c.toNat / 16) * 16 + c.toNat % 16)
                        = c.toNat := by omega
                    rw [hv, Char.ofNat_toNat]
                    rfl
                  · rw [show escapeChar c = [c] by
                      simp [escapeChar, h1, h2, h3, h4, h5, h6, h7, h8]]
                    simp only [List.cons_append, List.nil_append]
                    rw [psb_raw c _ h1 h2 h8, ih rest]
                    rfl

/-! ## Claim C9: digit facts and number-literal roundtrip -/

theorem digit_ne {c d : Char} (h : isDigitCh c = true) (hd : isDigitCh d = false) :
    c ≠ d := fun he => by subst he; rw [h] at hd; cases hd

theorem digit_not_jsonWs {c : Char} (h : isDigitCh c = true) : isJsonWs c = false := by
  have h1 := digit_ne h (show isDigitCh ' ' = false from by decide)
  have h2 := digit_ne h (show isDigitCh '\t' = false from by decide)
  have h3 := digit_ne h (show isDigitCh '\n' = false from by decide)
  have h4 := digit_ne h (show isDigitCh '\x0d' = false from by decide)
  simp [isJsonWs, h1, h2, h3, h4]

theorem digit_not_pyWs {c : Char} (h : isDigitCh c = true) : isPyWs c = false := by
  have h1 := digit_ne h (show isDigitCh ' ' = false from by decide)
  have h2 := digit_ne h (show isDigitCh '\t' = false from by decide)
  have h3 := digit_ne h (show isDigitCh '\n' = false from by decide)
  have h4 := digit_ne h (show isDigitCh '\x0d' = false from by decide)
  have h5 := digit_ne h (show isDigitCh '\x0b' = false from by decide)
  have h6 := digit_ne h (show isDigitCh '\x0c' = false from by decide)
  simp [isPyWs, h1, h2, h3, h4, h5, h6]

theorem parseNumBody_int (a : Nat) (rest : List Char)
    (hrest : ∀ c t, rest = c :: t → isDigitCh c = false ∧ c ≠ '.') :
    parseNumBody (natChars a ++ rest) = some (a, 0, rest) := by
  have hdig : ∀ c ∈ natChars a, isDigitCh c = true := natChars_digits a
  have h1 : (natChars a ++ rest).takeWhile isDigitCh =
      natChars a ++ rest.takeWhile isDigitCh := takeWhile_all_append rest hdig
  have h2 : rest.takeWhile isDigitCh = [] :=
    takeWhile_head_false (fun c t h => (hrest c t h).1)
  have h3 : (natChars a ++ rest).dropWhile isDigitCh = rest := by
    rw [dropWhile_all_append rest hdig]
    exact dropWhile_head_false' (fun c t h => (hrest c t h).1)
  have hne : (natChars a ++ rest.takeWhile isDigitCh).isEmpty = false := by
    rw [h2, List.append_nil]
    cases hn : natChars a with
    | nil => exact absurd hn (natChars_ne_nil a)
    | cons x y => rfl
  have hdot : rest.head? = some '.' → False := by
    intro hh
    cases hrr : rest with
    | nil => rw [hrr] at hh; cases hh
    | cons c t =>
      rw [hrr] at hh
      have : c = '.' := by simpa using hh
      exact (hrest c t hrr).2 this
  have hne2 : (natChars a).isEmpty = false := by
    cases hn : natChars a with
    | nil => exact absurd hn (natChars_ne_nil a)
    | cons x y => rfl
  unfold parseNumBody
  simp only [h1, h2, h3, List.append_nil, hne, Bool.false_eq_true, if_false]
  rw [if_neg hdot, digitsVal_natChars]
  rw [hne2]
  simp

theorem take_cons_of_pos {α : Type} (c : α) (t : List α) {i : Nat} (h : 0 < i) :
    (c :: t).take i = c :: t.take (i - 1) := by
  cases i with
  | zero => omega
  | succ j => simp

theorem parseNumBody_frac (a e : Nat) (he : e ≠ 0) (rest : List Char)
    (hrest : ∀ c t, rest = c :: t → isDigitCh c = false ∧ c ≠ '.') :
    parseNumBody
      ((List.replicate (e + 1 - (natChars a).length) '0' ++ natChars a).take
          ((List.replicate (e + 1 - (natChars a).length) '0' ++ natChars a).length - e)
        ++ '.' :: ((List.replicate (e + 1 - (natChars a).length) '0' ++ natChars a).drop
          ((List.replicate (e + 1 - (natChars a).length) '0' ++ natChars a).length - e)
          ++ rest)) = some (a, e, rest) := by
  have hnn : natChars a ≠ [] := natChars_ne_nil a
  have hnlen : 1 ≤ (natChars a).length := by
    cases hn : natChars a with
    | nil => exact absurd hn hnn
    | cons x y => simp
  have hall : ∀ c ∈ List.replicate (e + 1 - (natChars a).length) '0' ++ natChars a,
      isDigitCh c = true := by
    intro c hc
    rcases List.mem_append.mp hc with h | h
    · rw [List.eq_of_mem_replicate h]; decide
    · exact natChars_digits a c h
  have hlen : e + 1 ≤ (List.replicate (e + 1 - (natChars a).length) '0'
      ++ natChars a).length := by
    rw [List.length_append, List.length_replicate]
    omega
  have htake_digits : ∀ c ∈ (List.replicate (e + 1 - (natChars a).length) '0'
      ++ natChars a).take ((List.replicate (e + 1 - (natChars a).length) '0'
      ++ natChars a).length - e), isDigitCh c = true :=
    fun c hc => hall c (List.take_subset _ _ hc)
  have hdrop_digits : ∀ c ∈ (List.replicate (e + 1 - (natChars a).length) '0'
      ++ natChars a).drop ((List.replicate (e + 1 - (natChars a).length) '0'
      ++ natChars a).length - e), isDigitCh c = true :=
    fun c hc => hall c (List.drop_subset _ _ hc)
  have h2 : rest.takeWhile isDigitCh = [] :=
    takeWhile_head_false (fun c t h => (hrest c t h).1)
  have h3 : rest.dropWhile isDigitCh = rest :=
    dropWhile_head_false' (fun c t h => (hrest c t h).1)
  have h1 : (((List.replicate (e + 1 - (natChars a).length) '0' ++ natChars a).take
        ((List.replicate (e + 1 - (natChars a).length) '0' ++ natChars a).length - e))
      ++ '.' :: ((List.replicate (e + 1 - (natChars a).length) '0' ++ natChars a).drop
        ((List.replicate (e + 1 - (natChars a).length) '0' ++ natChars a).length - e)
        ++ rest)).takeWhile isDigitCh =
      (List.replicate (e + 1 - (natChars a).length) '0' ++ natChars a).take
        ((List.replicate (e + 1 - (natChars a).length) '0' ++ natChars a).length - e) := by
    rw [takeWhile_all_append _ htake_digits, List.takeWhile_cons,
      if_neg (by decide : ¬(isDigitCh '.' = true))]
    simp
  have h4 : (((List.replicate (e + 1 - (natChars a).length) '0' ++ natChars a).take
        ((List.replicate (e + 1 - (natChars a).length) '0' ++ natChars a).length - e))
      ++ '.' :: ((List.replicate (e + 1 - (natChars a).length) '0' ++ natChars a).drop
        ((List.replicate (e + 1 - (natChars a).length) '0' ++ natChars a).length - e)
        ++ rest)).dropWhile isDigitCh =
      '.' :: ((List.replicate (e + 1 - (natChars a).length) '0' ++ natChars a).drop
        ((List.replicate (e + 1 - (natChars a).length) '0' ++ natChars a).length - e)
        ++ rest) := by
    rw [dropWhile_all_append _ htake_digits, List.dropWhile_cons,
      if_neg (by decide : ¬(isDigitCh '.' = true))]
  have htlen : ((List.replicate (e + 1 - (natChars a).length) '0' ++ natChars a).take
      ((List.replicate (e + 1 - (natChars a).length) '0' ++ natChars a).length - e)).length
      = (List.replicate (e + 1 - (natChars a).length) '0' ++ natChars a).length - e := by
    rw [List.length_take]
    omega
  have hdlen : ((List.replicate (e + 1 - (natChars a).length) '0' ++ natChars a).drop
      ((List.replicate (e + 1 - (natChars a).length) '0' ++ natChars a).length - e)).length
      = e := by
    rw [List.length_drop]
    omega
  have hne : (((List.replicate (e + 1 - (natChars a).length) '0' ++ natChars a).take
      ((List.replicate (e + 1 - (natChars a).length) '0' ++ natChars a).length - e))).isEmpty
      = false := by
    cases hn : ((List.replicate (e + 1 - (natChars a).length) '0' ++ natChars a).take
        ((List.replicate (e + 1 - (natChars a).length) '0' ++ natChars a).length - e)) with
    | nil =>
      have := congrArg List.length hn
      rw [htlen] at this
      simp at this
      omega
    | cons x y => rfl
  have hfp : ((List.replicate (e + 1 - (natChars a).length) '0' ++ natChars a).drop
        ((List.replicate (e + 1 - (natChars a).length) '0' ++ natChars a).length - e)
        ++ rest).takeWhile isDigitCh =
      (List.replicate (e + 1 - (natChars a).length) '0' ++ natChars a).drop
        ((List.replicate (e + 1 - (natChars a).length) '0' ++ natChars a).length - e) := by
    rw [takeWhile_all_append _ hdrop_digits, h2, List.append_nil]
  have hr3 : ((List.replicate (e + 1 - (natChars a).length) '0' ++ natChars a).drop
        ((List.replicate (e + 1 - (natChars a).length) '0' ++ natChars a).length - e)
        ++ rest).dropWhile isDigitCh = rest := by
    rw [dropWhile_all_append _ hdrop_digits, h3]
  have hfpne : ((List.replicate (e + 1 - (natChars a).length) '0' ++ natChars a).drop
      ((List.replicate (e + 1 - (natChars a).length) '0' ++ natChars a).length - e)).isEmpty
      = false := by
    cases hn : ((List.replicate (e + 1 - (natChars a).length) '0' ++ natChars a).drop
        ((List.replicate (e + 1 - (natChars a).length) '0' ++ natChars a).length - e)) with
    | nil =>
      have := congrArg List.length hn
      rw [hdlen] at this
      simp at this
      omega
    | cons x y => rfl
  unfold parseNumBody
  simp only [h1, h4, hne, Bool.false_eq_true, if_false, List.head?_cons, List.tail_cons,
    hfp, hr3, hfpne, if_pos rfl]
  rw [List.take_append_drop, digitsVal_replicate_zero, digitsVal_natChars, hdlen]
  simp

/-! ## Claim C9: shape facts about the serialized form -/

theorem replicate_append_ne_nil {k : Nat} {l : List Char} (h : l ≠ []) :
    List.replicate k '0' ++ l ≠ [] := by
  intro hc
  rcases List.append_eq_nil.mp hc with ⟨_, h2⟩
  exact h h2

theorem numChars_head (m : Int) (e : Nat) :
    ∃ c t, numChars m e = c :: t ∧ (isDigitCh c = true ∨ c = '-') := by
  unfold numChars
  by_cases he : e = 0
  · rw [if_pos he]
    unfold intChars
    by_cases hm : m < 0
    · exact ⟨'-', _, by rw [if_pos hm], Or.inr rfl⟩
    · rw [if_neg hm]
      cases hn : natChars m.natAbs with
      | nil => exact absurd hn (natChars_ne_nil _)
      | cons c t =>
        exact ⟨c, t, rfl, Or.inl (natChars_digits _ c (by rw [hn]; simp))⟩
  · rw [if_neg he]
    by_cases hm : m < 0
    · rw [if_pos hm]
      refine ⟨'-', _, rfl, Or.inr rfl⟩
    · rw [if_neg hm]
      have hnn := natChars_ne_nil m.natAbs
      have hlen : 1 ≤ (natChars m.natAbs).length := by
        cases hn : natChars m.natAbs with
        | nil => exact absurd hn hnn
        | cons x y => simp
      cases hds : List.replicate (e + 1 - (natChars m.natAbs).length) '0'
          ++ natChars m.natAbs with
      | nil => exact absurd hds (replicate_append_ne_nil hnn)
      | cons c tl =>
        have hdslen : e + 1 ≤ (List.replicate (e + 1 - (natChars m.natAbs).length) '0'
            ++ natChars m.natAbs).length := by
          rw [List.length_append, List.length_replicate]
          omega
        have hipos : 0 < (List.replicate (e + 1 - (natChars m.natAbs).length) '0'
            ++ natChars m.natAbs).length - e := by omega
        rw [hds] at hipos
        rw [take_cons_of_pos c tl hipos, List.nil_append, List.cons_append]
        refine ⟨c, _, rfl, Or.inl ?_⟩
        have : c ∈ List.replicate (e + 1 - (natChars m.natAbs).length) '0'
            ++ natChars m.natAbs := by rw [hds]; simp
        rcases List.mem_append.mp this with h | h
        · rw [List.eq_of_mem_replicate h]; decide
        · exact natChars_digits _ c h

theorem jdump_head (v : Json) :
    ∃ c t, jdump v = c :: t ∧ isJsonWs c = false ∧ isPyWs c = false ∧ c ≠ ']' := by
  cases v with
  | null => exact ⟨'n', ['u', 'l', 'l'], by decide, by decide, by decide, by decide⟩
  | jbool b =>
    cases b
    · exact ⟨'f', ['a', 'l', 's', 'e'], by decide, by decide, by decide, by decide⟩
    · exact ⟨'t', ['r', 'u', 'e'], by decide, by decide, by decide, by decide⟩
  | jnan =>
    exact ⟨'N', ['a', 'N'], by decide, by decide, by decide, by decide⟩
  | jinf =>
    exact ⟨'I', ['n', 'f', 'i', 'n', 'i', 't', 'y'], by decide, by decide, by decide, by decide⟩
  | jninf =>
    exact ⟨'-', ['I', 'n', 'f', 'i', 'n', 'i', 't', 'y'], by decide, by decide, by decide,
      by decide⟩
  | jstr s =>
    exact ⟨'"', (s.data.map escapeChar).flatten ++ ['"'],
      by simp [jdump, strChars], by decide, by decide, by decide⟩
  | jarr a =>
    exact ⟨'[', adump a, by simp [jdump], by decide, by decide, by decide⟩
  | jobj o =>
    exact ⟨'\x7b', odump o, by simp [jdump], by decide, by decide, by decide⟩
  | jnum m e =>
    obtain ⟨c, t, hct, hc⟩ := numChars_head m e
    refine ⟨c, t, by simp [jdump, hct], ?_, ?_, ?_⟩
    · rcases hc with h | h
      · exact digit_not_jsonWs h
      · subst h; decide
    · rcases hc with h | h
      · exact digit_not_pyWs h
      · subst h; decide
    · rcases hc with h | h
      · exact digit_ne h (by decide)
      · subst h; decide

theorem skipWs_of_head {c : Char} {t : List Char} (h : isJsonWs c = false) :
    skipWs (c :: t) = c :: t := by
  unfold skipWs
  rw [List.dropWhile_cons, if_neg (by simp [h])]

theorem skipWs_jdump (v : Json) (rest : List Char) :
    skipWs (jdump v ++ rest) = jdump v ++ rest := by
  obtain ⟨c, t, hct, hws, _, _⟩ := jdump_head v
  rw [hct, List.cons_append, skipWs_of_head hws]

theorem adump_last : ∀ (a : JArr), ∃ s, adump a = s ++ [']']
  | JArr.anil => ⟨[], by decide⟩
  | JArr.acons v JArr.anil => ⟨jdump v, by simp [adump]⟩
  | JArr.acons v (JArr.acons v2 t2) => by
    obtain ⟨s, hs⟩ := adump_last (JArr.acons v2 t2)
    exact ⟨jdump v ++ ',' :: ' ' :: s, by simp [adump, hs]⟩

theorem odump_last : ∀ (o : JObj), ∃ s, odump o = s ++ ['\x7d']
  | JObj.onil => ⟨[], by decide⟩
  | JObj.ocons k v JObj.onil => ⟨strChars k ++ ':' :: ' ' :: jdump v, by simp [odump]⟩
  | JObj.ocons k v (JObj.ocons k2 v2 t2) => by
    obtain ⟨s, hs⟩ := odump_last (JObj.ocons k2 v2 t2)
    exact ⟨strChars k ++ ':' :: ' ' :: (jdump v ++ ',' :: ' ' :: s), by simp [odump, hs]⟩

theorem natChars_last (a : Nat) :
    ∃ s c, natChars a = s ++ [c] ∧ isDigitCh c = true := by
  have hnn := natChars_ne_nil a
  refine ⟨(natChars a).dropLast, (natChars a).getLast hnn,
    (List.dropLast_append_getLast hnn).symm, ?_⟩
  exact natChars_digits a _ (List.getLast_mem hnn)

theorem numChars_last (m : Int) (e : Nat) :
    ∃ s c, numChars m e = s ++ [c] ∧ isPyWs c = false := by
  unfold numChars
  by_cases he : e = 0
  · rw [if_pos he]
    unfold intChars
    obtain ⟨s, c, hsc, hc⟩ := natChars_last m.natAbs
    by_cases hm : m < 0
    · rw [if_pos hm, hsc]
      exact ⟨'-' :: s, c, rfl, digit_not_pyWs hc⟩
    · rw [if_neg hm, hsc]
      exact ⟨s, c, rfl, digit_not_pyWs hc⟩
  · rw [if_neg he]
    have hnn := natChars_ne_nil m.natAbs
    have hlen : 1 ≤ (natChars m.natAbs).length := by
      cases hn : natChars m.natAbs with
      | nil => exact absurd hn hnn
      | cons x y => simp
    have hdslen : e + 1 ≤ (List.replicate (e + 1 - (natChars m.natAbs).length) '0'
        ++ natChars m.natAbs).length := by
      rw [List.length_append, List.length_replicate]
      omega
    have hdlen : ((List.replicate (e + 1 - (natChars m.natAbs).length) '0'
        ++ natChars m.natAbs).drop ((List.replicate (e + 1 - (natChars m.natAbs).length) '0'
        ++ natChars m.natAbs).length - e)).length = e := by
      rw [List.length_drop]
      omega
    have hdnn : (List.replicate (e + 1 - (natChars m.natAbs).length) '0'
        ++ natChars m.natAbs).drop ((List.replicate (e + 1 - (natChars m.natAbs).length) '0'
        ++ natChars m.natAbs).length - e) ≠ [] := by
      intro hc
      have := congrArg List.length hc
      rw [hdlen] at this
      simp at this
      omega
    obtain ⟨s2, c, hsc, hcmem⟩ : ∃ s2 c,
        (List.replicate (e + 1 - (natChars m.natAbs).length) '0'
          ++ natChars m.natAbs).drop ((List.replicate (e + 1 - (natChars m.natAbs).length) '0'
          ++ natChars m.natAbs).length - e) = s2 ++ [c]
        ∧ isDigitCh c = true := by
      refine ⟨_, _, (List.dropLast_append_getLast hdnn).symm, ?_⟩
      have hmem := List.getLast_mem hdnn
      have hmem2 := List.drop_subset _ _ hmem
      rcases List.mem_append.mp hmem2 with h | h
      · rw [List.eq_of_mem_replicate h]; decide
      · exact natChars_digits _ _ h
    rw [hsc]
    refine ⟨(if m < 0 then ['-'] else []) ++ (List.replicate
        (e + 1 - (natChars m.natAbs).length) '0' ++ natChars m.natAbs).take
        ((List.replicate (e + 1 - (natChars m.natAbs).length) '0'
          ++ natChars m.natAbs).length - e) ++ '.' :: s2, c, by simp, digit_not_pyWs hcmem⟩

/-! ## Claim C9: the parser consumes exactly one dumped value -/

theorem skipWs_ws_cons {c : Char} (h : isJsonWs c = true) (l : List Char) :
    skipWs (c :: l) = skipWs l := by
  simp [skipWs, List.dropWhile_cons, h]

theorem restHead_cons (c : Char) (h1 : isDigitCh c = false) (h2 : c ≠ '.') (r : List Char) :
    RestHead (c :: r) := by
  intro c' t' he
  injection he with ha hb
  subst ha
  exact ⟨h1, h2⟩

theorem restHead_nil : RestHead [] := by
  intro c' t' he
  cases he

theorem adump_cons_head (v : Json) (t : JArr) :
    ∃ c0 t0, adump (JArr.acons v t) = c0 :: t0 ∧ isJsonWs c0 = false ∧ c0 ≠ ']' := by
  obtain ⟨c0, t0, hct, hws, _, hne⟩ := jdump_head v
  cases t with
  | anil => exact ⟨c0, t0 ++ [']'], by simp [adump, hct], hws, hne⟩
  | acons v2 t2 =>
    exact ⟨c0, t0 ++ ',' :: ' ' :: adump (JArr.acons v2 t2), by simp [adump, hct], hws, hne⟩

theorem odump_cons_head (k : String) (v : Json) (t : JObj) :
    ∃ t0, odump (JObj.ocons k v t) = '"' :: t0 := by
  cases t with
  | onil =>
    exact ⟨((k.data.map escapeChar).flatten ++ ['"']) ++ ':' :: ' ' :: (jdump v ++ ['\x7d']),
      by simp [odump, strChars]⟩
  | ocons k2 v2 t2 =>
    exact ⟨((k.data.map escapeChar).flatten ++ ['"'])
        ++ ':' :: ' ' :: (jdump v ++ ',' :: ' ' :: odump (JObj.ocons k2 v2 t2)),
      by simp [odump, strChars]⟩

theorem parseJ_null_case (fuel : Nat) (l rest : List Char)
    (hskip : skipWs l = jdump Json.null ++ rest) :
    parseJ (fuel + 1) l = some (Json.null, rest) := by
  rw [parseJ.eq_def]
  rw [show jdump Json.null = ['n', 'u', 'l', 'l'] from rfl] at hskip
  simp only [List.cons_append, List.nil_append] at hskip
  simp [hskip]

theorem parseJ_true_case (fuel : Nat) (l rest : List Char)
    (hskip : skipWs l = jdump (Json.jbool true) ++ rest) :
    parseJ (fuel + 1) l = some (Json.jbool true, rest) := by
  rw [parseJ.eq_def]
  rw [show jdump (Json.jbool true) = ['t', 'r', 'u', 'e'] from rfl] at hskip
  simp only [List.cons_append, List.nil_append] at hskip
  simp [hskip]

theorem parseJ_false_case (fuel : Nat) (l rest : List Char)
    (hskip : skipWs l = jdump (Json.jbool false) ++ rest) :
    parseJ (fuel + 1) l = some (Json.jbool false, rest) := by
  rw [parseJ.eq_def]
  rw [show jdump (Json.jbool false) = ['f', 'a', 'l', 's', 'e'] from rfl] at hskip
  simp only [List.cons_append, List.nil_append] at hskip
  simp [hskip]

theorem parseJ_str_case (fuel : Nat) (l rest : List Char) (s : String)
    (hskip : skipWs l = jdump (Json.jstr s) ++ rest) :
    parseJ (fuel + 1) l = some (Json.jstr s, rest) := by
  rw [parseJ.eq_def]
  rw [show jdump (Json.jstr s) = '"' :: ((s.data.map escapeChar).flatten ++ ['"']) from rfl]
    at hskip
  simp only [List.cons_append, List.append_assoc, List.singleton_append] at hskip
  simp only [hskip]
  rw [parseStrBody_escape]
  rfl

theorem take8_ne_inf {c : Char} (t : List Char) (hc : c ≠ 'I') :
    ¬((c :: t).take 8 = ['I', 'n', 'f', 'i', 'n', 'i', 't', 'y']) := by
  intro h
  rw [show (8 : Nat) = 7 + 1 from rfl, List.take_succ_cons] at h
  injection h with h1 _
  exact hc h1

theorem parseJ_num_case (fuel : Nat) (l rest : List Char) (m : Int) (e : Nat)
    (hskip : skipWs l = numChars m e ++ rest)
    (hrest : RestHead rest) :
    parseJ (fuel + 1) l = some (Json.jnum m e, rest) := by
  rw [parseJ.eq_def]
  by_cases he : e = 0
  · subst he
    rw [show numChars m 0 = intChars m from rfl] at hskip
    unfold intChars at hskip
    by_cases hm : m < 0
    · rw [if_pos hm] at hskip
      simp only [List.cons_append] at hskip
      simp only [hskip]
      rw [if_neg (show ¬('-' = 'n') from by decide), if_neg (show ¬('-' = 't') from by decide),
        if_neg (show ¬('-' = 'f') from by decide), if_neg (show ¬('-' = '"') from by decide),
        if_neg (show ¬('-' = '[') from by decide), if_neg (show ¬('-' = '\x7b') from by decide),
        if_neg (show ¬('-' = 'N') from by decide), if_neg (show ¬('-' = 'I') from by decide),
        if_pos (by trivial)]
      cases hn : natChars m.natAbs with
      | nil => exact absurd hn (natChars_ne_nil _)
      | cons c tl =>
        have hc : isDigitCh c = true := natChars_digits _ c (by rw [hn]; simp)
        rw [List.cons_append]
        rw [if_neg (take8_ne_inf (tl ++ rest) (digit_ne hc (by decide)))]
        rw [show c :: (tl ++ rest) = natChars m.natAbs ++ rest from by rw [hn]; rfl]
        rw [parseNumBody_int m.natAbs rest hrest]
        have hval : -(m.natAbs : Int) = m := by omega
        simp only [Option.map_some', hval]
    · rw [if_neg hm] at hskip
      cases hn : natChars m.natAbs with
      | nil => exact absurd hn (natChars_ne_nil _)
      | cons c tl =>
        have hc : isDigitCh c = true := natChars_digits _ c (by rw [hn]; simp)
        rw [hn, List.cons_append] at hskip
        simp only [hskip]
        rw [if_neg (digit_ne hc (by decide)), if_neg (digit_ne hc (by decide)),
          if_neg (digit_ne hc (by decide)), if_neg (digit_ne hc (by decide)),
          if_neg (digit_ne hc (by decide)), if_neg (digit_ne hc (by decide)),
          if_neg (digit_ne hc (by decide)), if_neg (digit_ne hc (by decide)),
          if_neg (digit_ne hc (by decide)), if_pos hc]
        rw [show c :: (tl ++ rest) = natChars m.natAbs ++ rest from by rw [hn]; rfl]
        rw [parseNumBody_int m.natAbs rest hrest]
        have hval : (m.natAbs : Int) = m := by omega
        simp only [Option.map_some', hval]
  · rw [show numChars m e = (if m < 0 then ['-'] else [])
      ++ (List.replicate (e + 1 - (natChars m.natAbs).length) '0' ++ natChars m.natAbs).take
          ((List.replicate (e + 1 - (natChars m.natAbs).length) '0'
            ++ natChars m.natAbs).length - e)
      ++ '.' :: (List.replicate (e + 1 - (natChars m.natAbs).length) '0'
            ++ natChars m.natAbs).drop
          ((List.replicate (e + 1 - (natChars m.natAbs).length) '0'
            ++ natChars m.natAbs).length - e) from by rw [numChars, if_neg he]] at hskip
    have hnn := natChars_ne_nil m.natAbs
    have hlen : 1 ≤ (natChars m.natAbs).length := by
      cases hn : natChars m.natAbs with
      | nil => exact absurd hn hnn
      | cons x y => simp
    have htklen : ((List.replicate (e + 1 - (natChars m.natAbs).length) '0'
        ++ natChars m.natAbs).take ((List.replicate (e + 1 - (natChars m.natAbs).length) '0'
        ++ natChars m.natAbs).length - e)).length
        = (List.replicate (e + 1 - (natChars m.natAbs).length) '0'
        ++ natChars m.natAbs).length - e := by
      rw [List.length_take]
      omega
    cases htt : (List.replicate (e + 1 - (natChars m.natAbs).length) '0'
        ++ natChars m.natAbs).take ((List.replicate (e + 1 - (natChars m.natAbs).length) '0'
        ++ natChars m.natAbs).length - e) with
    | nil =>
      exfalso
      have := congrArg List.length htt
      rw [htklen] at this
      simp [List.length_append, List.length_replicate] at this
      omega
    | cons c ttl =>
      have hc : isDigitCh c = true := by
        have hcm : c ∈ (List.replicate (e + 1 - (natChars m.natAbs).length) '0'
            ++ natChars m.natAbs).take ((List.replicate
            (e + 1 - (natChars m.natAbs).length) '0'
            ++ natChars m.natAbs).length - e) := by rw [htt]; simp
        have hcm2 := List.take_subset _ _ hcm
        rcases List.mem_append.mp hcm2 with h | h
        · rw [List.eq_of_mem_replicate h]; decide
        · exact natChars_digits _ _ h
      by_cases hm : m < 0
      · rw [if_pos hm] at hskip
        simp only [List.cons_append, List.nil_append, List.append_assoc] at hskip
        simp only [hskip]
        rw [if_neg (show ¬('-' = 'n') from by decide),
          if_neg (show ¬('-' = 't') from by decide),
          if_neg (show ¬('-' = 'f') from by decide),
          if_neg (show ¬('-' = '"') from by decide),
          if_neg (show ¬('-' = '[') from by decide),
          if_neg (show ¬('-' = '\x7b') from by decide),
          if_neg (show ¬('-' = 'N') from by decide), if_neg (show ¬('-' = 'I') from by decide),
          if_pos (by trivial)]
        rw [if_neg (show ¬(((List.replicate (e + 1 - (natChars m.natAbs).length) '0'
            ++ natChars m.natAbs).take ((List.replicate (e + 1 - (natChars m.natAbs).length) '0'
            ++ natChars m.natAbs).length - e)
            ++ '.' :: ((List.replicate (e + 1 - (natChars m.natAbs).length) '0'
            ++ natChars m.natAbs).drop ((List.replicate (e + 1 - (natChars m.natAbs).length) '0'
            ++ natChars m.natAbs).length - e) ++ rest)).take 8
            = ['I', 'n', 'f', 'i', 'n', 'i', 't', 'y']) from by
          rw [htt, List.cons_append]
          exact take8_ne_inf _ (digit_ne hc (by decide)))]
        rw [parseNumBody_frac m.natAbs e he rest hrest]
        have hval : -(m.natAbs : Int) = m := by omega
        simp only [Option.map_some', hval]
      · rw [if_neg hm, List.nil_append] at hskip
        rw [htt] at hskip
        simp only [List.cons_append, List.append_assoc] at hskip
        simp only [hskip]
        rw [if_neg (digit_ne hc (by decide)), if_neg (digit_ne hc (by decide)),
          if_neg (digit_ne hc (by decide)), if_neg (digit_ne hc (by decide)),
          if_neg (digit_ne hc (by decide)), if_neg (digit_ne hc (by decide)),
          if_neg (digit_ne hc (by decide)), if_neg (digit_ne hc (by decide)),
          if_neg (digit_ne hc (by decide)), if_pos hc]
        rw [show c :: (ttl ++ '.' :: ((List.replicate (e + 1 - (natChars m.natAbs).length) '0'
            ++ natChars m.natAbs).drop ((List.replicate (e + 1 - (natChars m.natAbs).length) '0'
            ++ natChars m.natAbs).length - e) ++ rest))
            = (List.replicate (e + 1 - (natChars m.natAbs).length) '0'
            ++ natChars m.natAbs).take ((List.replicate (e + 1 - (natChars m.natAbs).length) '0'
            ++ natChars m.natAbs).length - e)
            ++ '.' :: ((List.replicate (e + 1 - (natChars m.natAbs).length) '0'
            ++ natChars m.natAbs).drop ((List.replicate (e + 1 - (natChars m.natAbs).length) '0'
            ++ natChars m.natAbs).length - e) ++ rest) from by rw [htt]; simp]
        rw [parseNumBody_frac m.natAbs e he rest hrest]
        have hval : (m.natAbs : Int) = m := by omega
        simp only [Option.map_some', hval]

theorem parseJ_nan_case (fuel : Nat) (l rest : List Char)
    (hskip : skipWs l = jdump Json.jnan ++ rest) :
    parseJ (fuel + 1) l = some (Json.jnan, rest) := by
  rw [parseJ.eq_def]
  rw [show jdump Json.jnan = ['N', 'a', 'N'] from rfl] at hskip
  simp only [List.cons_append, List.nil_append] at hskip
  simp [hskip]

theorem parseJ_inf_case (fuel : Nat) (l rest : List Char)
    (hskip : skipWs l = jdump Json.jinf ++ rest) :
    parseJ (fuel + 1) l = some (Json.jinf, rest) := by
  rw [parseJ.eq_def]
  rw [show jdump Json.jinf = ['I', 'n', 'f', 'i', 'n', 'i', 't', 'y'] from rfl] at hskip
  simp only [List.cons_append, List.nil_append] at hskip
  simp [hskip]

theorem parseJ_ninf_case (fuel : Nat) (l rest : List Char)
    (hskip : skipWs l = jdump Json.jninf ++ rest) :
    parseJ (fuel + 1) l = some (Json.jninf, rest) := by
  rw [parseJ.eq_def]
  rw [show jdump Json.jninf = ['-', 'I', 'n', 'f', 'i', 'n', 'i', 't', 'y'] from rfl] at hskip
  simp only [List.cons_append, List.nil_append] at hskip
  simp [hskip]

theorem jarr_nil_case (fuel : Nat) (l rest : List Char)
    (hskip : skipWs l = jdump (Json.jarr JArr.anil) ++ rest) :
    parseJ (fuel + 1) l = some (Json.jarr JArr.anil, rest) := by
  rw [parseJ.eq_def]
  rw [show jdump (Json.jarr JArr.anil) = '[' :: [']'] from rfl] at hskip
  simp only [List.cons_append, List.singleton_append] at hskip
  simp only [hskip]
  rw [skipWs_of_head (show isJsonWs ']' = false from by decide)]
  simp

theorem jarr_cons_case (fuel : Nat) (v : Json) (t : JArr) (l rest : List Char)
    (hsz : jsize (Json.jarr (JArr.acons v t)) ≤ fuel + 1)
    (hskip : skipWs l = jdump (Json.jarr (JArr.acons v t)) ++ rest)
    (hrest : RestHead rest)
    (ihA : ∀ v' t' l' rest', asize (JArr.acons v' t') ≤ fuel →
      skipWs l' = adump (JArr.acons v' t') ++ rest' → RestHead rest' →
      parseItems fuel l' = some (JArr.acons v' t', rest')) :
    parseJ (fuel + 1) l = some (Json.jarr (JArr.acons v t), rest) := by
  rw [parseJ.eq_def]
  rw [show jdump (Json.jarr (JArr.acons v t)) = '[' :: adump (JArr.acons v t) from rfl]
    at hskip
  simp only [List.cons_append] at hskip
  simp only [hskip]
  rw [if_neg (show ¬('[' = 'n') from by decide), if_neg (show ¬('[' = 't') from by decide),
    if_neg (show ¬('[' = 'f') from by decide), if_neg (show ¬('[' = '"') from by decide),
    if_pos (by trivial)]
  obtain ⟨c0, t0, hct, hws, hne⟩ := adump_cons_head v t
  have hr : adump (JArr.acons v t) ++ rest = c0 :: (t0 ++ rest) := by rw [hct]; rfl
  rw [hr, skipWs_of_head hws]
  rw [if_neg (show ¬(c0 :: (t0 ++ rest)).head? = some ']' from by
    simp only [List.head?_cons]
    intro hcc
    exact hne (by injection hcc))]
  rw [show c0 :: (t0 ++ rest) = adump (JArr.acons v t) ++ rest from hr.symm]
  rw [ihA v t (adump (JArr.acons v t) ++ rest) rest
    (by simp only [jsize] at hsz; omega)
    (by rw [hr, skipWs_of_head hws])
    hrest]
  simp only [Option.map_some']

theorem jobj_nil_case (fuel : Nat) (l rest : List Char)
    (hskip : skipWs l = jdump (Json.jobj JObj.onil) ++ rest) :
    parseJ (fuel + 1) l = some (Json.jobj JObj.onil, rest) := by
  rw [parseJ.eq_def]
  rw [show jdump (Json.jobj JObj.onil) = '\x7b' :: ['\x7d'] from rfl] at hskip
  simp only [List.cons_append, List.singleton_append] at hskip
  simp only [hskip]
  rw [skipWs_of_head (show isJsonWs '\x7d' = false from by decide)]
  simp

theorem jobj_cons_case (fuel : Nat) (k : String) (v : Json) (t : JObj) (l rest : List Char)
    (hsz : jsize (Json.jobj (JObj.ocons k v t)) ≤ fuel + 1)
    (hskip : skipWs l = jdump (Json.jobj (JObj.ocons k v t)) ++ rest)
    (hrest : RestHead rest)
    (ihM : ∀ k' v' t' l' rest', osize (JObj.ocons k' v' t') ≤ fuel →
      skipWs l' = odump (JObj.ocons k' v' t') ++ rest' → RestHead rest' →
      parseMembers fuel l' = some (JObj.ocons k' v' t', rest')) :
    parseJ (fuel + 1) l = some (Json.jobj (JObj.ocons k v t), rest) := by
  rw [parseJ.eq_def]
  rw [show jdump (Json.jobj (JObj.ocons k v t)) = '\x7b' :: odump (JObj.ocons k v t) from rfl]
    at hskip
  simp only [List.cons_append] at hskip
  simp only [hskip]
  rw [if_neg (show ¬('\x7b' = 'n') from by decide), if_neg (show ¬('\x7b' = 't') from by decide),
    if_neg (show ¬('\x7b' = 'f') from by decide), if_neg (show ¬('\x7b' = '"') from by decide),
    if_neg (show ¬('\x7b' = '[') from by decide), if_pos (by trivial)]
  obtain ⟨t0, hct⟩ := odump_cons_head k v t
  have hws : isJsonWs '"' = false := by decide
  have hr : odump (JObj.ocons k v t) ++ rest = '"' :: (t0 ++ rest) := by rw [hct]; rfl
  rw [hr, skipWs_of_head hws]
  rw [if_neg (show ¬('"' :: (t0 ++ rest)).head? = some '\x7d' from by
    simp only [List.head?_cons]
    intro hcc
    have : '"' = '\x7d' := by injection hcc
    exact absurd this (by decide))]
  rw [show '"' :: (t0 ++ rest) = odump (JObj.ocons k v t) ++ rest from hr.symm]
  rw [ihM k v t (odump (JObj.ocons k v t) ++ rest) rest
    (by simp only [jsize] at hsz; omega)
    (by rw [hr, skipWs_of_head hws])
    hrest]
  simp only [Option.map_some']

theorem items_step (fuel : Nat) (v : Json) (t : JArr) (l rest : List Char)
    (hsz : asize (JArr.acons v t) ≤ fuel + 1)
    (hskip : skipWs l = adump (JArr.acons v t) ++ rest)
    (hrest : RestHead rest)
    (ihJ : ∀ v' l' rest', jsize v' ≤ fuel → skipWs l' = jdump v' ++ rest' → RestHead rest' →
      parseJ fuel l' = some (v', rest'))
    (ihA : ∀ v' t' l' rest', asize (JArr.acons v' t') ≤ fuel →
      skipWs l' = adump (JArr.acons v' t') ++ rest' → RestHead rest' →
      parseItems fuel l' = some (JArr.acons v' t', rest')) :
    parseItems (fuel + 1) l = some (JArr.acons v t, rest) := by
  rw [parseItems.eq_2]
  cases t with
  | anil =>
    rw [show adump (JArr.acons v JArr.anil) = jdump v ++ [']'] from by
      cases v <;> rfl] at hskip
    rw [List.append_assoc, List.singleton_append] at hskip
    rw [ihJ v l (']' :: rest) (by simp only [asize] at hsz; omega) hskip
      (restHead_cons ']' (by decide) (by decide) rest)]
    simp [skipWs_of_head (show isJsonWs ']' = false from by decide)]
  | acons v2 t2 =>
    rw [show adump (JArr.acons v (JArr.acons v2 t2))
        = jdump v ++ ',' :: ' ' :: adump (JArr.acons v2 t2) from by rfl] at hskip
    rw [List.append_assoc] at hskip
    rw [ihJ v l (',' :: ' ' :: adump (JArr.acons v2 t2) ++ rest)
      (by simp only [asize] at hsz; omega) hskip
      (restHead_cons ',' (by decide) (by decide) _)]
    obtain ⟨c0, t0, hct, hws, hne⟩ := adump_cons_head v2 t2
    have hr : adump (JArr.acons v2 t2) ++ rest = c0 :: (t0 ++ rest) := by rw [hct]; rfl
    have hpi : parseItems fuel (' ' :: (adump (JArr.acons v2 t2) ++ rest))
        = some (JArr.acons v2 t2, rest) :=
      ihA v2 t2 (' ' :: (adump (JArr.acons v2 t2) ++ rest)) rest
        (by simp only [asize] at hsz ⊢; omega)
        (by rw [skipWs_ws_cons (by decide), hr, skipWs_of_head hws])
        hrest
    simp [skipWs_of_head (show isJsonWs ',' = false from by decide), hpi]

theorem members_step (fuel : Nat) (k : String) (v : Json) (t : JObj) (l rest : List Char)
    (hsz : osize (JObj.ocons k v t) ≤ fuel + 1)
    (hskip : skipWs l = odump (JObj.ocons k v t) ++ rest)
    (hrest : RestHead rest)
    (ihJ : ∀ v' l' rest', jsize v' ≤ fuel → skipWs l' = jdump v' ++ rest' → RestHead rest' →
      parseJ fuel l' = some (v', rest'))
    (ihM : ∀ k' v' t' l' rest', osize (JObj.ocons k' v' t') ≤ fuel →
      skipWs l' = odump (JObj.ocons k' v' t') ++ rest' → RestHead rest' →
      parseMembers fuel l' = some (JObj.ocons k' v' t', rest')) :
    parseMembers (fuel + 1) l = some (JObj.ocons k v t, rest) := by
  rw [parseMembers.eq_2]
  cases t with
  | onil =>
    rw [show odump (JObj.ocons k v JObj.onil)
        = ('"' :: ((k.data.map escapeChar).flatten ++ ['"']))
          ++ ':' :: ' ' :: (jdump v ++ ['\x7d']) from rfl] at hskip
    simp only [List.cons_append, List.append_assoc, List.singleton_append,
      List.nil_append] at hskip
    simp only [hskip]
    have hpj : parseJ fuel (' ' :: (jdump v ++ '\x7d' :: rest)) = some (v, '\x7d' :: rest) :=
      ihJ v (' ' :: (jdump v ++ '\x7d' :: rest)) ('\x7d' :: rest)
        (by simp only [osize] at hsz; omega)
        (by rw [skipWs_ws_cons (by decide), skipWs_jdump])
        (restHead_cons '\x7d' (by decide) (by decide) rest)
    simp [parseStrBody_escape, hpj,
      skipWs_of_head (show isJsonWs ':' = false from by decide),
      skipWs_of_head (show isJsonWs '\x7d' = false from by decide)]
  | ocons k2 v2 t2 =>
    rw [show odump (JObj.ocons k v (JObj.ocons k2 v2 t2))
        = ('"' :: ((k.data.map escapeChar).flatten ++ ['"']))
          ++ ':' :: ' ' :: (jdump v ++ ',' :: ' ' :: odump (JObj.ocons k2 v2 t2)) from rfl]
      at hskip
    simp only [List.cons_append, List.append_assoc, List.singleton_append,
      List.nil_append] at hskip
    simp only [hskip]
    have hpj : parseJ fuel
        (' ' :: (jdump v ++ ',' :: ' ' :: (odump (JObj.ocons k2 v2 t2) ++ rest)))
        = some (v, ',' :: ' ' :: (odump (JObj.ocons k2 v2 t2) ++ rest)) :=
      ihJ v _ (',' :: ' ' :: (odump (JObj.ocons k2 v2 t2) ++ rest))
        (by simp only [osize] at hsz; omega)
        (by rw [skipWs_ws_cons (by decide), skipWs_jdump])
        (restHead_cons ',' (by decide) (by decide) _)
    obtain ⟨t0, hct⟩ := odump_cons_head k2 v2 t2
    have hr : odump (JObj.ocons k2 v2 t2) ++ rest = '"' :: (t0 ++ rest) := by rw [hct]; rfl
    have hpm : parseMembers fuel (' ' :: (odump (JObj.ocons k2 v2 t2) ++ rest))
        = some (JObj.ocons k2 v2 t2, rest) :=
      ihM k2 v2 t2 _ rest
        (by simp only [osize] at hsz ⊢; omega)
        (by rw [skipWs_ws_cons (by decide), hr,
          skipWs_of_head (show isJsonWs '"' = false from by decide)])
        hrest
    simp [parseStrBody_escape, hpj, hpm,
      skipWs_of_head (show isJsonWs ':' = false from by decide),
      skipWs_of_head (show isJsonWs ',' = false from by decide)]

theorem parse_roundtrip (fuel : Nat) :
    (∀ v l rest, jsize v ≤ fuel → skipWs l = jdump v ++ rest → RestHead rest →
      parseJ fuel l = some (v, rest)) ∧
    (∀ v t l rest, asize (JArr.acons v t) ≤ fuel →
      skipWs l = adump (JArr.acons v t) ++ rest → RestHead rest →
      parseItems fuel l = some (JArr.acons v t, rest)) ∧
    (∀ k v t l rest, osize (JObj.ocons k v t) ≤ fuel →
      skipWs l = odump (JObj.ocons k v t) ++ rest → RestHead rest →
      parseMembers fuel l = some (JObj.ocons k v t, rest)) := by
  induction fuel with
  | zero =>
    refine ⟨?_, ?_, ?_⟩
    · intro v l rest hsz _ _
      exfalso
      cases v <;> simp only [jsize] at hsz <;> omega
    · intro v t l rest hsz _ _
      exfalso
      simp only [asize] at hsz
      omega
    · intro k v t l rest hsz _ _
      exfalso
      simp only [osize] at hsz
      omega
  | succ fuel ih =>
    obtain ⟨ihJ, ihA, ihM⟩ := ih
    refine ⟨?_, ?_, ?_⟩
    · intro v l rest hsz hskip hrest
      cases v with
      | null => exact parseJ_null_case fuel l rest hskip
      | jbool b =>
        cases b
        · exact parseJ_false_case fuel l rest hskip
        · exact parseJ_true_case fuel l rest hskip
      | jnum m e => exact parseJ_num_case fuel l rest m e hskip hrest
      | jnan => exact parseJ_nan_case fuel l rest hskip
      | jinf => exact parseJ_inf_case fuel l rest hskip
      | jninf => exact parseJ_ninf_case fuel l rest hskip
      | jstr s => exact parseJ_str_case fuel l rest s hskip
      | jarr a =>
        cases a with
        | anil => exact jarr_nil_case fuel l rest hskip
        | acons v2 t2 => exact jarr_cons_case fuel v2 t2 l rest hsz hskip hrest ihA
      | jobj o =>
        cases o with
        | onil => exact jobj_nil_case fuel l rest hskip
        | ocons k2 v2 t2 => exact jobj_cons_case fuel k2 v2 t2 l rest hsz hskip hrest ihM
    · intro v t l rest hsz hskip hrest
      exact items_step fuel v t l rest hsz hskip hrest ihJ ihA
    · intro k v t l rest hsz hskip hrest
      exact members_step fuel k v t l rest hsz hskip hrest ihJ ihM

/-! ## Claim C9: fuel bound and newline-freedom of the serialized form -/

mutual
theorem jsize_le : ∀ v : Json, jsize v ≤ 2 * (jdump v).length
  | Json.null => by decide
  | Json.jbool b => by cases b <;> decide
  | Json.jnan => by decide
  | Json.jinf => by decide
  | Json.jninf => by decide
  | Json.jnum m e => by
    obtain ⟨c, t, hct, _⟩ := numChars_head m e
    simp only [jsize, jdump, hct, List.length_cons]
    omega
  | Json.jstr s => by
    simp only [jsize, jdump, strChars, List.length_cons]
    omega
  | Json.jarr a => by
    have h := asize_le a
    simp only [jsize, jdump, List.length_cons]
    omega
  | Json.jobj o => by
    have h := osize_le o
    simp only [jsize, jdump, List.length_cons]
    omega
theorem asize_le : ∀ a : JArr, asize a ≤ 2 * (adump a).length
  | JArr.anil => by decide
  | JArr.acons v JArr.anil => by
    have h1 := jsize_le v
    simp only [asize, adump, List.length_append, List.length_cons, List.length_nil]
    omega
  | JArr.acons v (JArr.acons v2 t2) => by
    have h1 := jsize_le v
    have h2 := asize_le (JArr.acons v2 t2)
    simp only [asize] at h2
    simp only [asize, adump, List.length_append, List.length_cons]
    omega
theorem osize_le : ∀ o : JObj, osize o ≤ 2 * (odump o).length
  | JObj.onil => by decide
  | JObj.ocons k v JObj.onil => by
    have h1 := jsize_le v
    simp only [osize, odump, List.length_append, List.length_cons, List.length_nil]
    omega
  | JObj.ocons k v (JObj.ocons k2 v2 t2) => by
    have h1 := jsize_le v
    have h2 := osize_le (JObj.ocons k2 v2 t2)
    simp only [osize] at h2
    simp only [osize, odump, List.length_append, List.length_cons]
    omega
end

theorem hexDigit_ne_nl {d : Nat} (h : d < 16) : hexDigit d ≠ '\n' := by
  interval_cases d <;> decide

theorem escapeChar_no_nl (c : Char) : '\n' ∉ escapeChar c := by
  intro h
  unfold escapeChar at h
  split_ifs at h with h1 h2 h3 h4 h5 h6 h7 h8
  · exact absurd h (by decide)
  · exact absurd h (by decide)
  · exact absurd h (by decide)
  · exact absurd h (by decide)
  · exact absurd h (by decide)
  · exact absurd h (by decide)
  · exact absurd h (by decide)
  · simp only [List.mem_cons, List.not_mem_nil, or_false] at h
    rcases h with h | h | h | h | h | h
    · exact absurd h (by decide)
    · exact absurd h (by decide)
    · exact absurd h (by decide)
    · exact absurd h (by decide)
    · exact hexDigit_ne_nl (by omega) h.symm
    · exact hexDigit_ne_nl (by omega) h.symm
  · rcases List.mem_singleton.mp h with h
    rw [← h] at h8
    exact h8 (by decide)

theorem strChars_no_nl (s : String) : '\n' ∉ strChars s := by
  intro h
  rcases List.mem_cons.mp h with h1 | h1
  · exact absurd h1 (by decide)
  · rcases List.mem_append.mp h1 with h2 | h2
    · obtain ⟨lc, hlc, hmem⟩ := List.mem_flatten.mp h2
      obtain ⟨c, _, hc⟩ := List.mem_map.mp hlc
      rw [← hc] at hmem
      exact escapeChar_no_nl c hmem
    · exact absurd h2 (by decide)

theorem numChars_no_nl (m : Int) (e : Nat) : '\n' ∉ numChars m e := by
  intro h
  unfold numChars at h
  by_cases he : e = 0
  · rw [if_pos he] at h
    unfold intChars at h
    by_cases hm : m < 0
    · rw [if_pos hm] at h
      rcases List.mem_cons.mp h with h1 | h1
      · exact absurd h1 (by decide)
      · exact absurd (natChars_digits _ _ h1) (by decide)
    · rw [if_neg hm] at h
      exact absurd (natChars_digits _ _ h) (by decide)
  · rw [if_neg he] at h
    have hall : ∀ c ∈ List.replicate (e + 1 - (natChars m.natAbs).length) '0'
        ++ natChars m.natAbs, isDigitCh c = true := by
      intro c hc
      rcases List.mem_append.mp hc with h2 | h2
      · rw [List.eq_of_mem_replicate h2]; decide
      · exact natChars_digits _ _ h2
    rcases List.mem_append.mp h with h1 | h1
    · rcases List.mem_append.mp h1 with h2 | h2
      · by_cases hm : m < 0
        · rw [if_pos hm] at h2
          exact absurd (List.mem_singleton.mp h2) (by decide)
        · rw [if_neg hm] at h2
          exact absurd h2 (List.not_mem_nil _)
      · exact absurd (hall _ (List.take_subset _ _ h2)) (by decide)
    · rcases List.mem_cons.mp h1 with h2 | h2
      · exact absurd h2 (by decide)
      · exact absurd (hall _ (List.drop_subset _ _ h2)) (by decide)

mutual
theorem jdump_no_nl : ∀ v : Json, '\n' ∉ jdump v
  | Json.null => by decide
  | Json.jbool b => by cases b <;> decide
  | Json.jnan => by decide
  | Json.jinf => by decide
  | Json.jninf => by decide
  | Json.jnum m e => numChars_no_nl m e
  | Json.jstr s => strChars_no_nl s
  | Json.jarr a => by
    intro h
    rcases List.mem_cons.mp h with h1 | h1
    · exact absurd h1 (by decide)
    · exact adump_no_nl a h1
  | Json.jobj o => by
    intro h
    rcases List.mem_cons.mp h with h1 | h1
    · exact absurd h1 (by decide)
    · exact odump_no_nl o h1
theorem adump_no_nl : ∀ a : JArr, '\n' ∉ adump a
  | JArr.anil => by decide
  | JArr.acons v JArr.anil => by
    intro h
    rcases List.mem_append.mp h with h1 | h1
    · exact jdump_no_nl v h1
    · exact absurd (List.mem_singleton.mp h1) (by decide)
  | JArr.acons v (JArr.acons v2 t2) => by
    intro h
    rcases List.mem_append.mp h with h1 | h1
    · exact jdump_no_nl v h1
    · rcases List.mem_cons.mp h1 with h2 | h2
      · exact absurd h2 (by decide)
      · rcases List.mem_cons.mp h2 with h3 | h3
        · exact absurd h3 (by decide)
        · exact adump_no_nl (JArr.acons v2 t2) h3
theorem odump_no_nl : ∀ o : JObj, '\n' ∉ odump o
  | JObj.onil => by decide
  | JObj.ocons k v JObj.onil => by
    intro h
    rcases List.mem_append.mp h with h1 | h1
    · exact strChars_no_nl k h1
    · rcases List.mem_cons.mp h1 with h2 | h2
      · exact absurd h2 (by decide)
      · rcases List.mem_cons.mp h2 with h3 | h3
        · exact absurd h3 (by decide)
        · rcases List.mem_append.mp h3 with h4 | h4
          · exact jdump_no_nl v h4
          · exact absurd (List.mem_singleton.mp h4) (by decide)
  | JObj.ocons k v (JObj.ocons k2 v2 t2) => by
    intro h
    rcases List.mem_append.mp h with h1 | h1
    · exact strChars_no_nl k h1
    · rcases List.mem_cons.mp h1 with h2 | h2
      · exact absurd h2 (by decide)
      · rcases List.mem_cons.mp h2 with h3 | h3
        · exact absurd h3 (by decide)
        · rcases List.mem_append.mp h3 with h4 | h4
          · exact jdump_no_nl v h4
          · rcases List.mem_cons.mp h4 with h5 | h5
            · exact absurd h5 (by decide)
            · rcases List.mem_cons.mp h5 with h6 | h6
              · exact absurd h6 (by decide)
              · exact odump_no_nl (JObj.ocons k2 v2 t2) h6
end

/-! ## Claim C9: stripping and line-splitting are inverse to writing -/

theorem stripChars_noop (l : List Char)
    (hh : ∃ c t, l = c :: t ∧ isPyWs c = false)
    (hl : ∃ s c, l = s ++ [c] ∧ isPyWs c = false) :
    stripChars l = l := by
  obtain ⟨c, t, hct, hc⟩ := hh
  obtain ⟨s, c2, hsc, hc2⟩ := hl
  have hrev : l.reverse = c2 :: s.reverse := by rw [hsc]; simp
  have h1 : List.dropWhile isPyWs l.reverse = l.reverse := by
    apply dropWhile_head_false'
    intro c' t' he
    rw [hrev] at he
    injection he with ha _
    rw [ha] at hc2
    exact hc2
  unfold stripChars
  rw [h1, List.reverse_reverse]
  apply dropWhile_head_false'
  intro c' t' he
  rw [hct] at he
  injection he with ha _
  rw [ha] at hc
  exact hc

theorem jdump_last (v : Json) : ∃ s c, jdump v = s ++ [c] ∧ isPyWs c = false := by
  cases v with
  | null => exact ⟨['n', 'u', 'l'], 'l', by decide, by decide⟩
  | jbool b =>
    cases b
    · exact ⟨['f', 'a', 'l', 's'], 'e', by decide, by decide⟩
    · exact ⟨['t', 'r', 'u'], 'e', by decide, by decide⟩
  | jnan => exact ⟨['N', 'a'], 'N', by decide, by decide⟩
  | jinf => exact ⟨['I', 'n', 'f', 'i', 'n', 'i', 't'], 'y', by decide, by decide⟩
  | jninf => exact ⟨['-', 'I', 'n', 'f', 'i', 'n', 'i', 't'], 'y', by decide, by decide⟩
  | jnum m e =>
    obtain ⟨s, c, h, hpy⟩ := numChars_last m e
    exact ⟨s, c, by simp only [jdump]; exact h, hpy⟩
  | jstr s =>
    exact ⟨'"' :: (s.data.map escapeChar).flatten, '"', by simp [jdump, strChars], by decide⟩
  | jarr a =>
    obtain ⟨s, hs⟩ := adump_last a
    exact ⟨'[' :: s, ']', by simp [jdump, hs], by decide⟩
  | jobj o =>
    obtain ⟨s, hs⟩ := odump_last o
    exact ⟨'\x7b' :: s, '\x7d', by simp [jdump, hs], by decide⟩

theorem stripChars_jdump (v : Json) : stripChars (jdump v) = jdump v :=
  stripChars_noop _
    (by obtain ⟨c, t, hct, _, hpy, _⟩ := jdump_head v; exact ⟨c, t, hct, hpy⟩)
    (jdump_last v)

theorem foldr_splitStep : ∀ (l : List Char), '\n' ∉ l → ∀ (a : List Char)
    (as : List (List Char)), l.foldr splitStep (a :: as) = (l ++ a) :: as := by
  intro l
  induction l with
  | nil => intro _ a as; rfl
  | cons c t ih =>
    intro h a as
    have hc : ¬(c = '\n') := fun he => h (by rw [he]; exact List.mem_cons_self _ _)
    rw [List.foldr_cons, ih (fun hm => h (List.mem_cons_of_mem c hm)) a as]
    simp [splitStep, hc]

theorem splitLines_append_line (l m : List Char) (h : '\n' ∉ l) :
    splitLines (l ++ '\n' :: m) = l :: splitLines m := by
  unfold splitLines
  rw [List.foldr_append]
  rw [show List.foldr splitStep [[]] ('\n' :: m) = [] :: List.foldr splitStep [[]] m from by
    rw [List.foldr_cons]; simp [splitStep]]
  rw [foldr_splitStep l h [] _]
  simp

theorem splitLines_write : ∀ records : List Json,
    splitLines ((records.map (fun r => jdump r ++ ['\n'])).flatten)
      = records.map jdump ++ [[]]
  | [] => rfl
  | r :: rs => by
    simp only [List.map_cons, List.flatten_cons, List.append_assoc, List.singleton_append]
    rw [splitLines_append_line _ _ (jdump_no_nl r), splitLines_write rs]
    rfl

theorem parseLine_jdump (v : Json) : parseLine (jdump v) = some v := by
  unfold parseLine
  have hf : jsize v ≤ 2 * (jdump v).length + 2 := le_trans (jsize_le v) (by omega)
  have hstep := (parse_roundtrip (2 * (jdump v).length + 2)).1 v (jdump v) [] hf
    (by
      rw [show jdump v ++ ([] : List Char) = jdump v from List.append_nil _]
      obtain ⟨c, t, hct, hws, _, _⟩ := jdump_head v
      rw [hct]
      exact skipWs_of_head hws)
    restHead_nil
  rw [hstep]
  simp [skipWs]

theorem load_dumped : ∀ rs : List Json,
    ((rs.map jdump).map stripChars).filterMap
      (fun line => if line.isEmpty then none else parseLine line) = rs
  | [] => rfl
  | r :: rs => by
    simp only [List.map_cons]
    rw [stripChars_jdump r]
    have hne : (jdump r).isEmpty = false := by
      obtain ⟨c, t, hct, _⟩ := jdump_head r
      rw [hct]
      rfl
    rw [@List.filterMap_cons_some _ _
      (fun line => if line.isEmpty = true then none else parseLine line)
      (jdump r) (List.map stripChars (List.map jdump rs)) r
      (show (if (jdump r).isEmpty = true
        then none else parseLine (jdump r)) = some r from by
      rw [hne, parseLine_jdump r]
      simp)]
    rw [load_dumped rs]

/-! ## Claim C9: Python equality is reflexive exactly off `nan` -/

theorem olookup_isSome_of_mem : ∀ (o : JObj) (k : String),
    k ∈ okeys o → (olookup k o).isSome = true
  | JObj.onil, k => by
    intro hm
    simp [okeys] at hm
  | JObj.ocons kk v t, k => by
    intro hm
    by_cases hk : kk = k
    · simp [olookup, hk]
    · simp only [okeys, List.mem_cons] at hm
      rcases hm with h | h
      · exact absurd h.symm hk
      · simp only [olookup, if_neg hk]
        exact olookup_isSome_of_mem t k h

theorem mem_okeys_of_bindingIn : ∀ (o : JObj) (k : String) (v : Json),
    bindingIn k v o → k ∈ okeys o
  | JObj.onil, k, v => by
    intro h
    simp [bindingIn] at h
  | JObj.ocons kk vv t, k, v => by
    intro h
    simp only [bindingIn] at h
    rcases h with ⟨h1, _⟩ | h2
    · simp [okeys, h1]
    · simp only [okeys, List.mem_cons]
      exact Or.inr (mem_okeys_of_bindingIn t k v h2)

theorem olookup_of_bindingIn : ∀ (o : JObj) (k : String) (v : Json),
    (okeys o).Nodup → bindingIn k v o → olookup k o = some v
  | JObj.onil, k, v => by
    intro _ h
    simp [bindingIn] at h
  | JObj.ocons kk vv t, k, v => by
    intro hnd h
    simp only [bindingIn] at h
    simp only [okeys, List.nodup_cons] at hnd
    rcases h with ⟨h1, h2⟩ | h2
    · subst h1
      subst h2
      simp [olookup]
    · have hk : ¬(kk = k) := by
        intro he
        subst he
        exact hnd.1 (mem_okeys_of_bindingIn t kk v h2)
      simp only [olookup, if_neg hk]
      exact olookup_of_bindingIn t k v hnd.2 h2

mutual
theorem pyEqJ_refl : ∀ v : Json, nanFree v = true → nodupKeysJ v = true → pyEqJ v v = true
  | Json.null => fun _ _ => rfl
  | Json.jbool b => fun _ _ => by cases b <;> rfl
  | Json.jnum m e => fun _ _ => by simp [pyEqJ]
  | Json.jnan => fun h _ => by simp [nanFree] at h
  | Json.jinf => fun _ _ => rfl
  | Json.jninf => fun _ _ => rfl
  | Json.jstr s => fun _ _ => by simp [pyEqJ]
  | Json.jarr a => fun h1 h2 => by
    simp only [nanFree] at h1
    simp only [nodupKeysJ] at h2
    simp only [pyEqJ]
    exact pyEqA_refl a h1 h2
  | Json.jobj o => fun h1 h2 => by
    simp only [nanFree] at h1
    simp only [nodupKeysJ, Bool.and_eq_true] at h2
    simp only [pyEqJ, Bool.and_eq_true]
    refine ⟨pyEqBindings_refl o o h1 h2.2 (fun k v hb =>
      olookup_of_bindingIn o k v (of_decide_eq_true h2.1) hb), ?_⟩
    rw [List.all_eq_true]
    intro k hk
    exact olookup_isSome_of_mem o k hk
theorem pyEqA_refl : ∀ a : JArr, nanFreeA a = true → nodupKeysA a = true → pyEqA a a = true
  | JArr.anil => fun _ _ => rfl
  | JArr.acons v t => fun h1 h2 => by
    simp only [nanFreeA, Bool.and_eq_true] at h1
    simp only [nodupKeysA, Bool.and_eq_true] at h2
    simp only [pyEqA, Bool.and_eq_true]
    exact ⟨pyEqJ_refl v h1.1 h2.1, pyEqA_refl t h1.2 h2.2⟩
theorem pyEqBindings_refl : ∀ (t o : JObj), nanFreeO t = true → nodupKeysO t = true →
    (∀ k v, bindingIn k v t → olookup k o = some v) → pyEqBindings t o = true
  | JObj.onil, o => fun _ _ _ => rfl
  | JObj.ocons k v t2, o => fun h1 h2 hsub => by
    simp only [nanFreeO, Bool.and_eq_true] at h1
    simp only [nodupKeysO, Bool.and_eq_true] at h2
    simp only [pyEqBindings, Bool.and_eq_true]
    have hk : olookup k o = some v := hsub k v (by simp [bindingIn])
    rw [hk]
    exact ⟨pyEqJ_refl v h1.1 h2.1,
      pyEqBindings_refl t2 o h1.2 h2.2 (fun k2 v2 hb => hsub k2 v2 (by
        simp only [bindingIn]
        exact Or.inr hb))⟩
end

theorem pyEqJList_refl : ∀ l : List Json,
    l.all (fun v => nanFree v && nodupKeysJ v) = true → pyEqJList l l = true
  | [] => fun _ => rfl
  | v :: t => fun h => by
    simp only [List.all_cons, Bool.and_eq_true] at h
    simp only [pyEqJList, Bool.and_eq_true]
    exact ⟨pyEqJ_refl v h.1.1 h.1.2, pyEqJList_refl t h.2⟩

/-- The reload of a written record list is structurally identical to
the list that was written: every line reparses to the same value tree,
with `nan`/`inf`/`-inf` reproduced where they were written (`json.dump`
emits them with the default `allow_nan=True` and `json.loads` reads
them back). -/
theorem jsonl_structural (records : List Json) :
    load_jsonl (write_jsonl records) = records := by
  unfold load_jsonl write_jsonl
  rw [show (String.mk ((records.map (fun r => jdump r ++ ['\n'])).flatten)).data
      = (records.map (fun r => jdump r ++ ['\n'])).flatten from rfl]
  rw [splitLines_write records]
  rw [List.map_append, List.filterMap_append]
  rw [show ((([[]] : List (List Char)).map stripChars).filterMap
      (fun line => if line.isEmpty then none else parseLine line)) = [] from rfl]
  rw [load_dumped records, List.append_nil]

/-- C9 counterexample: a record with a NaN-valued field (as pandas
produces for a missing manifest cell) is written as the literal `NaN`
and reloads without error to a structurally identical record, yet
Python's `==` reports the reloaded list as NOT equal to the original,
because the reloaded `nan` is a fresh float object and `nan != nan`.
The universal round-trip equality therefore fails in the program. -/
theorem jsonl_roundtrip_nan_counterexample :
    load_jsonl (write_jsonl [Json.jobj (JObj.ocons "sequence_order" Json.jnan JObj.onil)])
      = [Json.jobj (JObj.ocons "sequence_order" Json.jnan JObj.onil)] ∧
    pyEqJList
      (load_jsonl (write_jsonl [Json.jobj (JObj.ocons "sequence_order" Json.jnan JObj.onil)]))
      [Json.jobj (JObj.ocons "sequence_order" Json.jnan JObj.onil)] = false := by
  constructor
  · decide
  · decide

/-- C9 (corrected): round-trip of the line-delimited export.  Writing
any list of records with `_write_jsonl` (one `json.dump`ed object per
line) and reloading with `ocr_tools.load_jsonl` (strip each line, skip
blanks, parse each line) yields a list whose value trees are
structurally identical to the originals, record for record in the same
order (key order within each record is preserved, so this is equality
ignoring key ordering in particular); and whenever no record contains a
NaN value (keys of Python dicts being unique), the reloaded list is
also equal to the original under Python `==`.  With a NaN the `==`
equality fails, since the reloaded `nan` compares unequal. -/
theorem jsonl_roundtrip (records : List Json) :
    load_jsonl (write_jsonl records) = records ∧
    (records.all (fun v => nanFree v && nodupKeysJ v) = true →
      pyEqJList (load_jsonl (write_jsonl records)) records = true) := by
  have h := jsonl_structural records
  refine ⟨h, fun hok => ?_⟩
  rw [h]
  exact pyEqJList_refl records hok

/-- C9 witness: the round-trip evaluated on a concrete two-record list
exercising objects, nested arrays, strings with escapes, null, booleans,
infinity, and both integer and fractional numbers; the NaN-freedom
hypothesis of the `==` conjunct is discharged by computation. -/
theorem jsonl_roundtrip_witness :
    load_jsonl (write_jsonl
      [Json.jobj (JObj.ocons "file_path" (Json.jstr "A/B 1.jpg")
        (JObj.ocons "confidence" (Json.jnum 75 2)
          (JObj.ocons "error" Json.null
            (JObj.ocons "tags" (Json.jarr (JArr.acons (Json.jbool true)
              (JArr.acons (Json.jnum (-3) 0)
                (JArr.acons Json.jinf JArr.anil)))) JObj.onil)))),
       Json.jstr "line one\nline \"two\""])
    = [Json.jobj (JObj.ocons "file_path" (Json.jstr "A/B 1.jpg")
        (JObj.ocons "confidence" (Json.jnum 75 2)
          (JObj.ocons "error" Json.null
            (JObj.ocons "tags" (Json.jarr (JArr.acons (Json.jbool true)
              (JArr.acons (Json.jnum (-3) 0)
                (JArr.acons Json.jinf JArr.anil)))) JObj.onil)))),
       Json.jstr "line one\nline \"two\""] ∧
    pyEqJList
      (load_jsonl (write_jsonl
        [Json.jobj (JObj.ocons "file_path" (Json.jstr "A/B 1.jpg")
          (JObj.ocons "confidence" (Json.jnum 75 2)
            (JObj.ocons "error" Json.null
              (JObj.ocons "tags" (Json.jarr (JArr.acons (Json.jbool true)
                (JArr.acons (Json.jnum (-3) 0)
                  (JArr.acons Json.jinf JArr.anil)))) JObj.onil)))),
         Json.jstr "line one\nline \"two\""]))
      [Json.jobj (JObj.ocons "file_path" (Json.jstr "A/B 1.jpg")
        (JObj.ocons "confidence" (Json.jnum 75 2)
          (JObj.ocons "error" Json.null
            (JObj.ocons "tags" (Json.jarr (JArr.acons (Json.jbool true)
              (JArr.acons (Json.jnum (-3) 0)
                (JArr.acons Json.jinf JArr.anil)))) JObj.onil)))),
       Json.jstr "line one\nline \"two\""] = true :=
  ⟨(jsonl_roundtrip
      [Json.jobj (JObj.ocons "file_path" (Json.jstr "A/B 1.jpg")
        (JObj.ocons "confidence" (Json.jnum 75 2)
          (JObj.ocons "error" Json.null
            (JObj.ocons "tags" (Json.jarr (JArr.acons (Json.jbool true)
              (JArr.acons (Json.jnum (-3) 0)
                (JArr.acons Json.jinf JArr.anil)))) JObj.onil)))),
       Json.jstr "line one\nline \"two\""]).1,
   (jsonl_roundtrip
      [Json.jobj (JObj.ocons "file_path" (Json.jstr "A/B 1.jpg")
        (JObj.ocons "confidence" (Json.jnum 75 2)
          (JObj.ocons "error" Json.null
            (JObj.ocons "tags" (Json.jarr (JArr.acons (Json.jbool true)
              (JArr.acons (Json.jnum (-3) 0)
                (JArr.acons Json.jinf JArr.anil)))) JObj.onil)))),
       Json.jstr "line one\nline \"two\""]).2 (by decide)⟩
